import Mathlib

/-!
# expo-detach: the step's orchestration, embedded from `main.go`

The Go program is embedded as pure functions.  Everything the program obtains
from outside (the parsed step inputs, the outcome of each external command, the
state of `package.json`) is a field of `World`; everything it does to the
outside (commands run, file read and written) is recorded, in order, in the
trace of the run.  `os.Exit` and `defer` are modelled explicitly.
-/

namespace ExpoDetach

/-! ## Data model -/

/-- Config of the step (`stepconf.Secret` is a string type). -/
structure Config where
  Workdir : String
  ExpoCLIVersion : String
  UserName : String
  Password : String
  RunPublish : String
  ForceReactNativeVersion : String
deriving DecidableEq, Repr

/-- EjectMethod: the two constants `Plain` and `ExpoKit` of the string type. -/
inductive EjectMethod where
  | Plain
  | ExpoKit
deriving DecidableEq, Repr

/-- The string value of an eject method constant (`string(e.Method)`). -/
def EjectMethod.toString : EjectMethod → String
  | .Plain => "plain"
  | .ExpoKit => "expoKit"

/-- Expo CLI. -/
structure Expo where
  Version : String
  Method : EjectMethod
  Workdir : String
deriving DecidableEq, Repr

/-- A command as built by `command.New(name, args...)`, with the directory set
by `SetDir` (empty when `SetDir` is not called). -/
structure Command where
  name : String
  args : List String
  dir : String
deriving DecidableEq, Repr

/-! ## JSON documents and the values `encoding/json` decodes them to -/

/-- A JSON number literal: sign, the decimal digits read as one natural number,
and the power of ten they are scaled by (`-12.5e3` is `⟨true, 125, 2⟩`). -/
structure JNumber where
  negative : Bool
  digits : Nat
  exp10 : Int
deriving DecidableEq, Repr

/-- A JSON document as it stands in a file. -/
inductive JSON where
  | null
  | bool (b : Bool)
  | number (n : JNumber)
  | string (s : String)
  | array (elems : List JSON)
  | object (members : List (String × JSON))

/-- The Go values `json.Unmarshal` stores in an `interface{}`: `nil`, `bool`,
`float64`, `string`, `[]interface{}` and `map[string]interface{}`.  A `float64`
is kept as the literal it was converted from (it stands for the float64 nearest
to that literal; the rounding itself is not computed).  A map is an association
list with at most one entry per key. -/
inductive GoValue where
  | nil
  | bool (b : Bool)
  | float64 (lit : JNumber)
  | string (s : String)
  | slice (elems : List GoValue)
  | map (entries : List (String × GoValue))

/-- The type `serialized.Object`, a `map[string]interface{}`. -/
abbrev Object := List (String × GoValue)

/-- Map lookup `m[key]` with its `ok` flag. -/
def Object.get (m : Object) (key : String) : Option GoValue :=
  match m with
  | [] => none
  | (k, v) :: rest => if k = key then some v else Object.get rest key

/-- Map assignment `m[key] = v`. -/
def Object.set (m : Object) (key : String) (v : GoValue) : Object :=
  match m with
  | [] => [(key, v)]
  | (k, v') :: rest => if k = key then (key, v) :: rest else (k, v') :: Object.set rest key v

/-- The least magnitude that `strconv.ParseFloat(s, 64)` rounds to infinity:
`2^1024 - 2^970`, half a unit in the last place above the largest float64. -/
def float64Limit : Nat :=
  179769313486231580793728971405303415079934132710037826936173778980444968292764750946649017977587207096330286416692887910946555547851940402630657488671505820681908902000708383676273854845817711531764475730270069855571366959622842914819860834936475292719074168444365510704342711559699508093042880177904174497792

/-- Whether `strconv.ParseFloat(s, 64)` fails with a range error on the literal. -/
def float64Overflows (n : JNumber) : Bool :=
  if 0 ≤ n.exp10 then decide (float64Limit ≤ n.digits * 10 ^ n.exp10.toNat)
  else decide (float64Limit * 10 ^ (-n.exp10).toNat ≤ n.digits)

mutual
/-- Decoding of a JSON value into an `interface{}` by `json.Unmarshal`: a number
becomes a float64 (an error when it is out of range), an array a slice, an
object a map.  Any error makes `Unmarshal` return an error. -/
def decodeValue : JSON → Except String GoValue
  | .null => .ok .nil
  | .bool b => .ok (.bool b)
  | .number n =>
    if float64Overflows n then .error "json: cannot unmarshal number into Go value of type float64"
    else .ok (.float64 n)
  | .string s => .ok (.string s)
  | .array es => (decodeElems es).map GoValue.slice
  | .object ms => (decodeMembers ms []).map GoValue.map
/-- Decoding of the elements of an array, in order. -/
def decodeElems : List JSON → Except String (List GoValue)
  | [] => .ok []
  | e :: es => do
    let v ← decodeValue e
    let vs ← decodeElems es
    pure (v :: vs)
/-- Decoding of the members of an object into the map `acc`, in order: each
member is assigned to its key, so a later member replaces an earlier one of the
same key. -/
def decodeMembers : List (String × JSON) → Object → Except String Object
  | [], acc => .ok acc
  | (k, j) :: ms, acc => do
    let v ← decodeValue j
    decodeMembers ms (Object.set acc k v)
end

/-- The call `json.Unmarshal(b, &packages)` with `packages` a nil
`serialized.Object`: `null` leaves the map nil (no entries), an object fills
it, any other value is a type error. -/
def jsonUnmarshal : JSON → Except String Object
  | .null => .ok []
  | .object ms => decodeMembers ms []
  | _ => .error "json: cannot unmarshal into Go value of type serialized.Object"

/-- The method `Object(key)` of `serialized.Object`: the value at `key` cast to a
`map[string]interface{}`; an error when the key is absent or the value is
anything else. -/
def Object.getObject (o : Object) (key : String) : Except String Object :=
  match o.get key with
  | none => .error "key not found"
  | some (.map entries) => .ok entries
  | some _ => .error "value is not a map"

/-! ## The outside world and the run of the process -/

/-- What `fileutil.ReadBytesFromFile` returns for `package.json`, as far as
`json.Unmarshal` is concerned: bytes that are not valid JSON, or a document. -/
inductive FileBytes where
  | notJSON
  | json (doc : JSON)

/-- Everything a run obtains from outside the program.  An error is
`some msg`/`.error msg`, success `none`/`.ok _`.  Every command is run at most
once in a run, so one outcome per command suffices. -/
structure World where
  /-- Result of `pathutil.IsPathExists(dir)`. -/
  IsPathExists : String → Except String Bool
  /-- Result of `cmd.Run()` in `installExpoCLI`. -/
  installErr : Option String
  /-- Result of `cmd.Run()` in `login`. -/
  loginErr : Option String
  /-- Result of `cmd.Run()` in `logout`. -/
  logoutErr : Option String
  /-- Result of `cmd.Run()` in `eject`. -/
  ejectErr : Option String
  /-- Result of `cmd.Run()` in `publish`. -/
  publishErr : Option String
  /-- Result of `fileutil.ReadBytesFromFile` on `package.json` in the workdir. -/
  packageJSON : Except String FileBytes
  /-- Result of `fileutil.WriteBytesToFile` on `package.json` in the workdir. -/
  writeErr : Option String

/-- What the process does to the outside, one entry per call. -/
inductive Action where
  /-- `cmd.Run()` of an external command. -/
  | run (cmd : Command)
  /-- `fileutil.ReadBytesFromFile` on `package.json`. -/
  | readPackageJSON
  /-- `fileutil.WriteBytesToFile` on `package.json`, with the indented encoding
  of the given value as content. -/
  | writePackageJSON (content : GoValue)

/-- The end of a run: the exit status and the actions performed, in order. -/
structure Exit where
  code : Nat
  trace : List Action

/-- The running process: the actions performed so far and the calls deferred by
`main`, the latest first.  A deferred call yields the actions it performs. -/
structure Proc where
  trace : List Action
  deferred : List (World → List Action)

/-- One more action performed. -/
def Proc.exec (p : Proc) (a : Action) : Proc :=
  { p with trace := p.trace ++ [a] }

/-- The statement `defer f()`. -/
def Proc.defer (p : Proc) (f : World → List Action) : Proc :=
  { p with deferred := f :: p.deferred }

/-- The call `os.Exit(code)`: the process ends at once; deferred functions are
not run. -/
def osExit (code : Nat) (p : Proc) : Exit :=
  { code := code, trace := p.trace }

/-- Return from `main`: the deferred calls run, the latest first, and the
process ends with status 0. -/
def returnFromMain (p : Proc) (w : World) : Exit :=
  { code := 0, trace := p.trace ++ (p.deferred.map (fun f => f w)).flatten }

/-! ## The functions of `main.go` -/

/-- installExpoCLI: the npm command that installs the expo-cli. -/
def Expo.installExpoCLI (e : Expo) : Command :=
  let args := ["install", "-g"]
  let args :=
    if e.Version ≠ "latest" then args ++ ["expo-cli@" ++ e.Version]
    else args ++ ["expo-cli"]
  { name := "npm", args := args, dir := "" }

/-- Login: the command that logs in to the Expo account. -/
def Expo.login (_e : Expo) (userName : String) (password : String) : Command :=
  { name := "expo", args := ["login", "--non-interactive", "-u", userName, "-p", password],
    dir := "" }

/-- Logout: the command that logs out from the Expo account. -/
def Expo.logout (_e : Expo) : Command :=
  { name := "expo", args := ["logout", "--non-interactive"], dir := "" }

/-- Eject: the command that creates the native projects. -/
def Expo.eject (e : Expo) : Command :=
  { name := "expo",
    args := ["eject", "--non-interactive", "--eject-method", e.Method.toString],
    dir := if e.Workdir ≠ "" then e.Workdir else "" }

/-- Publish: the command that publishes the project. -/
def Expo.publish (e : Expo) : Command :=
  { name := "expo", args := ["publish", "--non-interactive"],
    dir := if e.Workdir ≠ "" then e.Workdir else "" }

/-! ## The line `login` logs -/

/-- Replacement of every occurrence of the non-empty `old`, scanning from the
left: `skip` characters of a match just replaced are still to be passed over. -/
def stringsReplaceFrom (old new : List Char) : Nat → List Char → List Char
  | _, [] => []
  | skip + 1, _ :: t => stringsReplaceFrom old new skip t
  | 0, c :: t =>
    if old.isPrefixOf (c :: t) then new ++ stringsReplaceFrom old new (old.length - 1) t
    else c :: stringsReplaceFrom old new 0 t

/-- The call `strings.Replace(s, old, new, -1)` of the Go standard library:
the non-overlapping occurrences of `old`, found from the left, are replaced by
`new`; an empty `old` matches before every character and at the end. -/
def stringsReplaceAll (s old new : List Char) : List Char :=
  if old = new then s
  else if old = [] then new ++ s.flatMap (fun c => c :: new)
  else stringsReplaceFrom old new 0 s

/-- The digit of `n % 16` in `"0123456789abcdef"`. -/
def lowerhex (n : Nat) : Char :=
  "0123456789abcdef".data.getD (n % 16) '0'

/-- The function `strconv.IsPrint`: the test for Latin-1 is the one of the Go
source; beyond Latin-1 Go consults its tables of printable runes, here the
parameter `table`. -/
def IsPrint (table : Char → Bool) (r : Char) : Bool :=
  if r.toNat ≤ 0xFF then
    if 0x20 ≤ r.toNat ∧ r.toNat < 0x7F then true
    else if 0xA1 ≤ r.toNat then decide (r.toNat ≠ 0xAD)
    else false
  else table r

/-- The escaping of one rune by `strconv.Quote`. -/
def appendEscapedRune (table : Char → Bool) (r : Char) : List Char :=
  if r = Char.ofNat 34 ∨ r = Char.ofNat 92 then [Char.ofNat 92, r]
  else if IsPrint table r then [r]
  else if r.toNat = 7 then [Char.ofNat 92, 'a']
  else if r.toNat = 8 then [Char.ofNat 92, 'b']
  else if r.toNat = 12 then [Char.ofNat 92, 'f']
  else if r.toNat = 10 then [Char.ofNat 92, 'n']
  else if r.toNat = 13 then [Char.ofNat 92, 'r']
  else if r.toNat = 9 then [Char.ofNat 92, 't']
  else if r.toNat = 11 then [Char.ofNat 92, 'v']
  else if r.toNat < 0x20 ∨ r.toNat = 0x7F then
    [Char.ofNat 92, 'x', lowerhex (r.toNat / 16), lowerhex r.toNat]
  else if r.toNat < 0x10000 then
    [Char.ofNat 92, 'u', lowerhex (r.toNat / 4096), lowerhex (r.toNat / 256),
      lowerhex (r.toNat / 16), lowerhex r.toNat]
  else
    [Char.ofNat 92, 'U', lowerhex (r.toNat / 268435456), lowerhex (r.toNat / 16777216),
      lowerhex (r.toNat / 1048576), lowerhex (r.toNat / 65536), lowerhex (r.toNat / 4096),
      lowerhex (r.toNat / 256), lowerhex (r.toNat / 16), lowerhex r.toNat]

/-- The function `strconv.Quote` of the Go standard library on a string of
Unicode characters: a double-quoted Go string literal. -/
def strconvQuote (table : Char → Bool) (s : List Char) : List Char :=
  [Char.ofNat 34] ++ s.flatMap (appendEscapedRune table) ++ [Char.ofNat 34]

/-- The function `command.PrintableCommandArgs(isQuoteFirst, fullCommandArgs)`
of go-utils: every argument quoted (the first one only when `isQuoteFirst`),
joined by blanks.  The quoting function, `strconv.Quote` in go-utils, is the
parameter `quote`. -/
def PrintableCommandArgs (quote : List Char → List Char) (isQuoteFirst : Bool)
    (fullCommandArgs : List (List Char)) : List Char :=
  match fullCommandArgs with
  | [] => []
  | first :: rest =>
    List.intercalate [' '] ((if isQuoteFirst then quote first else first) :: rest.map quote)

/-- The method `cmd.PrintableCommandArgs()` of go-utils: the printable form of
the command name followed by its arguments, the name unquoted. -/
def Command.PrintableCommandArgs (quote : List Char → List Char) (cmd : Command) : List Char :=
  ExpoDetach.PrintableCommandArgs quote false ((cmd.name :: cmd.args).map String.data)

/-- The value `fileredArgs` of `login`: the printable command behind `"$ "`,
with every occurrence of the password replaced by `[REDACTED]`. -/
def Expo.loginFileredArgs (quote : List Char → List Char) (e : Expo) (userName : String)
    (password : String) : List Char :=
  let cmd := e.login userName password
  let nonFilteredArgs := "$ ".data ++ cmd.PrintableCommandArgs quote
  stringsReplaceAll nonFilteredArgs password.data "[REDACTED]".data

/-! ## The line `log.Printf` writes -/

/-- The function `tooLarge` of fmt: beyond a million in magnitude. -/
def tooLarge (x : Nat) : Bool :=
  decide (x > 1000000)

/-- The loop of `parsenum`: `num` and `isnum` so far, `k` characters read;
`all` is the number of characters up to `end`, returned on overflow. -/
def parsenumLoop (all : Nat) : Nat → Bool → Nat → List Char → Bool × Nat
  | _, isnum, k, [] => (isnum, k)
  | num, isnum, k, c :: t =>
    if '0' ≤ c ∧ c ≤ '9' then
      if tooLarge num then (false, all)
      else parsenumLoop all (num * 10 + (c.toNat - '0'.toNat)) true (k + 1) t
    else (isnum, k)

/-- The function `parsenum(s, start, end)` of fmt on the text from `start` to
`end`: whether a number was read, and how many characters it took (all of
them when the number is too large). -/
def parsenum (s : List Char) : Bool × Nat :=
  parsenumLoop s.length 0 false 0 s

/-- The function `parseArgNumber(format)` of fmt on a text that starts with
`[`: the width of the bracketed index and whether it is well formed. -/
def parseArgNumber (format : List Char) : Nat × Bool :=
  if format.length < 3 then (1, false)
  else
    match format.tail.indexOf? ']' with
    | none => (1, false)
    | some j =>
      let (isnum, newi) := parsenum (format.tail.take j)
      if !isnum || newi ≠ j then (j + 2, false) else (j + 2, true)

/-- The method `argNumber` of fmt when there are no operands: the characters
taken by an explicit argument index, whether one was found, and whether the
argument number is bad (with no operand every index is out of range). -/
def argNumber (format : List Char) : Nat × Bool × Bool :=
  match format with
  | '[' :: _ =>
    let (wid, ok) := parseArgNumber format
    (wid, ok, true)
  | _ => (0, false, false)

/-- One verb of `doPrintf` with no operands, on the text after the `%`: what
is written, and how many characters of that text the verb takes. -/
def doVerb (t : List Char) : List Char × Nat :=
  -- flags
  let nflags := (t.takeWhile
    (fun c => c = '#' ∨ c = '0' ∨ c = '+' ∨ c = '-' ∨ c = ' ')).length
  let r1 := t.drop nflags
  -- explicit argument index
  let (k2, after2, bad2) := argNumber r1
  let r2 := r1.drop k2
  -- width
  let (out3, k3, after3, bad3) : List Char × Nat × Bool × Bool :=
    match r2 with
    | '*' :: _ => ("%!(BADWIDTH)".data, 1, false, false)
    | _ =>
      let (widPresent, k) := parsenum r2
      ([], k, after2, after2 && widPresent)
  let r3 := r2.drop k3
  -- precision
  let (out4, k4, after4, bad4) : List Char × Nat × Bool × Bool :=
    match r3 with
    | '.' :: r =>
      let (ka, aftera, bada) := argNumber r
      match r.drop ka with
      | '*' :: _ => ("%!(BADPREC)".data, 1 + ka + 1, false, after3 || bada)
      | ra =>
        let (_, k) := parsenum ra
        ([], 1 + ka + k, aftera, after3 || bada)
    | _ => ([], 0, after3, false)
  let r4 := r3.drop k4
  -- argument index before the verb
  let (k5, bad5) : Nat × Bool :=
    if after4 then (0, false)
    else
      let (k, _, b) := argNumber r4
      (k, b)
  let r5 := r4.drop k5
  let goodArgNum := !(bad2 || bad3 || bad4 || bad5)
  let taken := nflags + k2 + k3 + k4 + k5
  match r5 with
  | [] => (out3 ++ out4 ++ "%!(NOVERB)".data, taken)
  | verb :: _ =>
    if verb = '%' then (out3 ++ out4 ++ ['%'], taken + 1)
    else if !goodArgNum then
      (out3 ++ out4 ++ "%!".data ++ [verb] ++ "(BADINDEX)".data, taken + 1)
    else (out3 ++ out4 ++ "%!".data ++ [verb] ++ "(MISSING)".data, taken + 1)

/-- The loop of `doPrintf` with no operands: text is copied up to a `%`, the
verb behind it is written by `doVerb`; `skip` characters taken by the last
verb are still to be passed over. -/
def doPrintf : Nat → List Char → List Char
  | _, [] => []
  | skip + 1, _ :: t => doPrintf skip t
  | 0, c :: t =>
    if c = '%' then (doVerb t).1 ++ doPrintf (doVerb t).2 t
    else c :: doPrintf 0 t

/-- The call `fmt.Sprintf(format)`, with no operand. -/
def fmtSprintf (format : List Char) : List Char :=
  doPrintf 0 format

/-- The line `log.Printf(format)` of go-utils writes when it is given no
operand: `fmt.Sprintf(format)`, uncoloured. -/
def logPrintf (format : List Char) : List Char :=
  fmtSprintf format

/-- The line `login` logs: `log.Printf(fileredArgs)`, the filtered text being
the format. -/
def Expo.loginLogLine (quote : List Char → List Char) (e : Expo) (userName : String)
    (password : String) : List Char :=
  logPrintf (e.loginFileredArgs quote userName password)

/-- The function `failf`: two log lines, then `os.Exit(1)`. -/
def failf (p : Proc) : Exit :=
  osExit 1 p

/-- The function `validateUserNameAndpassword`; `none` is the nil error. -/
def validateUserNameAndpassword (userName : String) (password : String) : Option String :=
  if userName ≠ "" ∧ password = "" then
    some "user name is specified but password is not provided"
  else if userName = "" ∧ password ≠ "" then
    some "password is specified but is not provided user name"
  else none

/-- The function `validateWorkdir`; `none` is the nil error. -/
def validateWorkdir (w : World) (dir : String) : Option String :=
  if dir = "" then none
  else
    match w.IsPathExists dir with
    | .error err => some err
    | .ok exist => if !exist then some "Workdir does not exist" else none

/-- The function deferred by `main`: logs out when the method is ExpoKit (a
failure is only logged as a warning); the two other branches only log. -/
def deferredLogout (e : Expo) (w : World) : List Action :=
  if e.Method = EjectMethod.ExpoKit then
    match w.logoutErr with
    | some _ => [Action.run e.logout]
    | none => [Action.run e.logout]
  else if e.Method = EjectMethod.ExpoKit then []
  else []

/-- The block of `main` guarded by `cfg.ForceReactNativeVersion != ""`: reads
`package.json`, sets `dependencies["react-native"]`, writes the file back.
`.error p` is a call of `failf` in state `p`; `.ok p` falls through. -/
def patchPackageJSON (cfg : Config) (w : World) (p : Proc) : Except Proc Proc :=
  let p := p.exec Action.readPackageJSON
  match w.packageJSON with
  | .error _ => .error p
  | .ok .notJSON => .error p
  | .ok (.json doc) =>
    match jsonUnmarshal doc with
    | .error _ => .error p
    | .ok packages =>
      match packages.getObject "dependencies" with
      | .error _ => .error p
      | .ok deps =>
        let deps := deps.set "react-native" (GoValue.string cfg.ForceReactNativeVersion)
        let packages := packages.set "dependencies" (GoValue.map deps)
        -- json.MarshalIndent cannot fail on a value decoded by json.Unmarshal
        let p := p.exec (Action.writePackageJSON (GoValue.map packages))
        match w.writeErr with
        | some _ => .error p
        | none => .ok p

/-- The function `main`, given the result of `stepconf.Parse`. -/
def main (parsed : Except String Config) (w : World) : Exit :=
  let p : Proc := { trace := [], deferred := [] }
  match parsed with
  | .error _ => failf p
  | .ok cfg =>
  match validateUserNameAndpassword cfg.UserName cfg.Password with
  | some _ => failf p
  | none =>
  match validateWorkdir w cfg.Workdir with
  | some _ => failf p
  | none =>
  -- Select the --eject-method
  let ejectMethod := if cfg.UserName ≠ "" then EjectMethod.ExpoKit else EjectMethod.Plain
  let e : Expo := { Version := cfg.ExpoCLIVersion, Method := ejectMethod, Workdir := cfg.Workdir }
  -- Install expo-cli
  let p := p.exec (Action.run e.installExpoCLI)
  match w.installErr with
  | some _ => failf p
  | none =>
  -- Logging in the user to the Expo account
  let login : Proc × Option String :=
    match ejectMethod with
    | .ExpoKit => (p.exec (Action.run (e.login cfg.UserName cfg.Password)), w.loginErr)
    | .Plain => (p, none)
  match login with
  | (p, some _) => failf p
  | (p, none) =>
  -- Logging out the user from the Expo account at the end of the step (even if it fails)
  let p := p.defer (deferredLogout e)
  -- Eject project via the Expo CLI
  let p := p.exec (Action.run e.eject)
  match w.ejectErr with
  | some _ => failf p
  | none =>
  let publish : Proc × Option String :=
    if cfg.RunPublish = "yes" then (p.exec (Action.run e.publish), w.publishErr)
    else (p, none)
  match publish with
  | (p, some _) => failf p
  | (p, none) =>
  let patch : Except Proc Proc :=
    if cfg.ForceReactNativeVersion ≠ "" then patchPackageJSON cfg w p
    else .ok p
  match patch with
  | .error p => failf p
  | .ok p => returnFromMain p w



/-! ## The steps of a run, as the specification names them -/

/-- The Expo value of a run: the configured version and workdir, and the eject
method ExpoKit exactly when a user name is given. -/
def Config.expo (cfg : Config) : Expo :=
  { Version := cfg.ExpoCLIVersion,
    Method := if cfg.UserName ≠ "" then EjectMethod.ExpoKit else EjectMethod.Plain,
    Workdir := cfg.Workdir }

/-- The install step: always one command. -/
def Config.installStep (cfg : Config) : List Action :=
  [Action.run cfg.expo.installExpoCLI]

/-- The login step: one command exactly when a user name is given. -/
def Config.loginStep (cfg : Config) : List Action :=
  if cfg.UserName ≠ "" then [Action.run (cfg.expo.login cfg.UserName cfg.Password)] else []

/-- The eject step: always one command. -/
def Config.ejectStep (cfg : Config) : List Action :=
  [Action.run cfg.expo.eject]

/-- The publish step: one command exactly when `RunPublish` is `"yes"`. -/
def Config.publishStep (cfg : Config) : List Action :=
  if cfg.RunPublish = "yes" then [Action.run cfg.expo.publish] else []

/-- The logout step: one command exactly when a user name is given. -/
def Config.logoutStep (cfg : Config) : List Action :=
  if cfg.UserName ≠ "" then [Action.run cfg.expo.logout] else []

/-- The content the patch block hands to the writer: `none` when the file
cannot be read, is not JSON, is rejected by `json.Unmarshal`, or has no object
under `"dependencies"`. -/
def patchContent (cfg : Config) (w : World) : Option GoValue :=
  match w.packageJSON with
  | .ok (.json doc) =>
    match jsonUnmarshal doc with
    | .ok packages =>
      match packages.getObject "dependencies" with
      | .ok deps =>
        some (GoValue.map (packages.set "dependencies"
          (GoValue.map (deps.set "react-native" (GoValue.string cfg.ForceReactNativeVersion)))))
      | .error _ => none
    | .error _ => none
  | _ => none

/-- The run of `main` on a parsed configuration, step by step: the first
failing step ends the run with status 1 right after its own action. -/
def mainSteps (cfg : Config) (w : World) : Exit :=
  if validateUserNameAndpassword cfg.UserName cfg.Password ≠ none then ⟨1, []⟩
  else if validateWorkdir w cfg.Workdir ≠ none then ⟨1, []⟩
  else if w.installErr ≠ none then ⟨1, cfg.installStep⟩
  else if cfg.UserName ≠ "" ∧ w.loginErr ≠ none then ⟨1, cfg.installStep ++ cfg.loginStep⟩
  else if w.ejectErr ≠ none then ⟨1, cfg.installStep ++ cfg.loginStep ++ cfg.ejectStep⟩
  else if cfg.RunPublish = "yes" ∧ w.publishErr ≠ none then
    ⟨1, cfg.installStep ++ cfg.loginStep ++ cfg.ejectStep ++ cfg.publishStep⟩
  else if cfg.ForceReactNativeVersion = "" then
    ⟨0, cfg.installStep ++ cfg.loginStep ++ cfg.ejectStep ++ cfg.publishStep ++ cfg.logoutStep⟩
  else
    match patchContent cfg w with
    | none =>
      ⟨1, cfg.installStep ++ cfg.loginStep ++ cfg.ejectStep ++ cfg.publishStep
        ++ [Action.readPackageJSON]⟩
    | some v =>
      if w.writeErr ≠ none then
        ⟨1, cfg.installStep ++ cfg.loginStep ++ cfg.ejectStep ++ cfg.publishStep
          ++ [Action.readPackageJSON, Action.writePackageJSON v]⟩
      else
        ⟨0, cfg.installStep ++ cfg.loginStep ++ cfg.ejectStep ++ cfg.publishStep
          ++ [Action.readPackageJSON, Action.writePackageJSON v] ++ cfg.logoutStep⟩

/-- The member in effect under `key` in the members of a JSON object: the last
one of that key. -/
def lastMember (ms : List (String × JSON)) (key : String) : Option JSON :=
  match ms with
  | [] => none
  | (k, j) :: rest =>
    match lastMember rest key with
    | some j' => some j'
    | none => if k = key then some j else none

/-- Both validations of `main` pass. -/
def validated (cfg : Config) (w : World) : Prop :=
  validateUserNameAndpassword cfg.UserName cfg.Password = none ∧
    validateWorkdir w cfg.Workdir = none

/-- The run gets past install and login: validation passes, install succeeds,
and login succeeds when it is invoked. -/
def loggedIn (cfg : Config) (w : World) : Prop :=
  validated cfg w ∧ w.installErr = none ∧ (cfg.UserName ≠ "" → w.loginErr = none)

/-- The run gets past eject. -/
def ejected (cfg : Config) (w : World) : Prop :=
  loggedIn cfg w ∧ w.ejectErr = none

/-- The run gets past publish: eject succeeds, and publish succeeds when it is
invoked. -/
def published (cfg : Config) (w : World) : Prop :=
  ejected cfg w ∧ (cfg.RunPublish = "yes" → w.publishErr = none)

/-- Two texts overlap: one occurs in the other, or a non-empty end of one is
a beginning of the other. -/
def overlap (s m : List Char) : Prop :=
  s <:+: m ∨ m <:+: s ∨ (∃ x, x ≠ [] ∧ x <:+ s ∧ x <+: m) ∨ (∃ x, x ≠ [] ∧ x <+: s ∧ x <:+ m)

/-- The overlap of two texts is decidable: the ends and beginnings in question
are finitely many. -/
instance overlapDecidable (s m : List Char) : Decidable (overlap s m) :=
  decidable_of_iff
    (s <:+: m ∨ m <:+: s ∨ (∃ x ∈ s.tails, x ≠ [] ∧ x <+: m) ∨
      (∃ x ∈ s.inits, x ≠ [] ∧ x <:+ m))
    (by
      unfold overlap
      simp only [List.mem_tails, List.mem_inits]
      constructor
      · rintro (h | h | ⟨x, hs, hx, hp⟩ | ⟨x, hs, hx, hp⟩)
        · exact Or.inl h
        · exact Or.inr (Or.inl h)
        · exact Or.inr (Or.inr (Or.inl ⟨x, hx, hs, hp⟩))
        · exact Or.inr (Or.inr (Or.inr ⟨x, hx, hs, hp⟩))
      · rintro (h | h | ⟨x, hx, hs, hp⟩ | ⟨x, hx, hs, hp⟩)
        · exact Or.inl h
        · exact Or.inr (Or.inl h)
        · exact Or.inr (Or.inr (Or.inl ⟨x, hs, hx, hp⟩))
        · exact Or.inr (Or.inr (Or.inr ⟨x, hs, hx, hp⟩)))

/-! ## Concrete runs -/

/-- A world in which every command succeeds and every path exists; there is no
`package.json`. -/
def okWorld : World :=
  { IsPathExists := fun _ => .ok true, installErr := none, loginErr := none, logoutErr := none,
    ejectErr := none, publishErr := none, packageJSON := .error "no such file",
    writeErr := none }

/-- Scenario A: version "latest", no credentials, publish "no", no override. -/
def scenarioA : Config :=
  { Workdir := "", ExpoCLIVersion := "latest", UserName := "", Password := "",
    RunPublish := "no", ForceReactNativeVersion := "" }

/-- Scenario B: version "3.2.1", credentials alice/s3cret, publish "yes". -/
def scenarioB : Config :=
  { Workdir := "", ExpoCLIVersion := "3.2.1", UserName := "alice", Password := "s3cret",
    RunPublish := "yes", ForceReactNativeVersion := "" }

/-- Scenario D: as scenario A, with the override version "0.66.0". -/
def scenarioD : Config :=
  { scenarioA with ForceReactNativeVersion := "0.66.0" }

/-- The manifest of scenario D. -/
def manifestD : JSON :=
  .object [("dependencies",
    .object [("react-native", .string "0.64.0"), ("lodash", .string "4.0.0")])]

/-- A manifest with an object under "dependencies" and a number beyond the
float64 range: `{"dependencies":{},"limit":1e400}`. -/
def manifestHuge : JSON :=
  .object [("dependencies", .object []), ("limit", .number ⟨false, 1, 400⟩)]

/-- The commands of scenario B. -/
def installB : Command := ⟨"npm", ["install", "-g", "expo-cli@3.2.1"], ""⟩

/-- The login command of scenario B. -/
def loginB : Command :=
  ⟨"expo", ["login", "--non-interactive", "-u", "alice", "-p", "s3cret"], ""⟩

/-- The eject command of scenario B. -/
def ejectB : Command :=
  ⟨"expo", ["eject", "--non-interactive", "--eject-method", "expoKit"], ""⟩

/-- Scenario C: the user name of scenario B, every other field different. -/
def scenarioC : Config :=
  { Workdir := "app", ExpoCLIVersion := "latest", UserName := "alice", Password := "other",
    RunPublish := "no", ForceReactNativeVersion := "" }

/-- The eject command of scenario C. -/
def ejectC : Command :=
  ⟨"expo", ["eject", "--non-interactive", "--eject-method", "expoKit"], "app"⟩

/-- The publish command. -/
def publishCmd : Command := ⟨"expo", ["publish", "--non-interactive"], ""⟩

/-- The logout command. -/
def logoutCmd : Command := ⟨"expo", ["logout", "--non-interactive"], ""⟩

/-- The install command of scenario A. -/
def installA : Command := ⟨"npm", ["install", "-g", "expo-cli"], ""⟩

/-- The eject command of scenario A. -/
def ejectA : Command :=
  ⟨"expo", ["eject", "--non-interactive", "--eject-method", "plain"], ""⟩

/-- Scenario D's world: every command succeeds, `package.json` holds the
manifest of scenario D. -/
def worldD : World :=
  { okWorld with packageJSON := .ok (.json manifestD) }

/-- A world whose `package.json` holds `manifestHuge`. -/
def worldHuge : World :=
  { okWorld with packageJSON := .ok (.json manifestHuge) }

/-- A world whose `package.json` holds the JSON value `null`. -/
def worldNull : World :=
  { okWorld with packageJSON := .ok (.json .null) }

/-- The password `a"b`. -/
def passwordWithQuote : String :=
  String.mk ['a', Char.ofNat 34, 'b']

/-- The quoting function of the concrete log lines: `strconv.Quote` with no
rune beyond Latin-1 taken as printable (the lines below are ASCII). -/
def quoteLatin1 : List Char → List Char :=
  strconvQuote (fun _ => false)

/-! # Theorems -/

/-! ## Lemmas on `strings.Replace` -/

theorem stringsReplaceFrom_match (old new : List Char) (c : Char) (t : List Char)
    (h : old.isPrefixOf (c :: t) = true) :
    stringsReplaceFrom old new 0 (c :: t)
      = new ++ stringsReplaceFrom old new (old.length - 1) t := by
  simp [stringsReplaceFrom, h]

theorem stringsReplaceFrom_nomatch (old new : List Char) (c : Char) (t : List Char)
    (h : ¬ old.isPrefixOf (c :: t) = true) :
    stringsReplaceFrom old new 0 (c :: t) = c :: stringsReplaceFrom old new 0 t := by
  simp [stringsReplaceFrom, h]

theorem stringsReplaceFrom_drop (old new : List Char) (k : Nat) (t : List Char) :
    stringsReplaceFrom old new k t = stringsReplaceFrom old new 0 (t.drop k) := by
  induction t generalizing k with
  | nil => cases k <;> simp [stringsReplaceFrom]
  | cons c t ih =>
    cases k with
    | zero => simp
    | succ k => simp [stringsReplaceFrom, ih k]

theorem infix_cons_cases {p : List Char} {c : Char} {t : List Char}
    (h : p <:+: c :: t) : p <+: c :: t ∨ p <:+: t := by
  rcases List.infix_cons_iff.mp h with h | h
  · exact Or.inl h
  · exact Or.inr h

/-- Of two beginnings of one text, one is a beginning of the other. -/
theorem prefix_or_prefix {a b l : List Char} (ha : a <+: l) (hb : b <+: l) :
    a <+: b ∨ b <+: a := by
  rcases Nat.le_total a.length b.length with h | h
  · exact Or.inl (List.prefix_of_prefix_length_le ha hb h)
  · exact Or.inr (List.prefix_of_prefix_length_le hb ha h)

/-- While an occurrence of `old` is being read in the result of a replacement,
past its first character, no replaced text can start: the rest of `old` is
read from the replaced text itself. -/
theorem rest_prefix_of_stringsReplaceFrom (old new : List Char) (hov : ¬ overlap old new)
    (u : List Char) :
    ∀ p s : List Char, old = p ++ s → p ≠ [] →
      s <+: stringsReplaceFrom old new 0 u → s <+: u := by
  induction u with
  | nil =>
    intro p s _ _ h
    simpa [stringsReplaceFrom] using h
  | cons c t ih =>
    intro p s hps hp h
    cases s with
    | nil => exact List.nil_prefix
    | cons a s =>
      by_cases hm : old.isPrefixOf (c :: t) = true
      · rw [stringsReplaceFrom_match old new c t hm] at h
        exfalso
        apply hov
        have hsuf : (a :: s) <:+ old := ⟨p, hps.symm⟩
        rcases prefix_or_prefix h (List.prefix_append new _) with h1 | h1
        · exact Or.inr (Or.inr (Or.inl ⟨a :: s, by simp, hsuf, h1⟩))
        · exact Or.inr (Or.inl (h1.isInfix.trans hsuf.isInfix))
      · rw [stringsReplaceFrom_nomatch old new c t hm, List.cons_prefix_cons] at h
        rw [List.cons_prefix_cons]
        refine ⟨h.1, ih (p ++ [a]) s ?_ (by simp) h.2⟩
        rw [hps]
        simp

/-- An occurrence of `old` in a replaced text behind an end of `new` lies
behind that end altogether. -/
theorem infix_of_infix_append_suffix (old new : List Char) (hov : ¬ overlap old new)
    (m : List Char) (hm : m <:+ new) (x : List Char) (h : old <:+: m ++ x) : old <:+: x := by
  induction m with
  | nil => simpa using h
  | cons b m ih =>
    have hm' : m <:+ new := (List.suffix_cons b m).trans hm
    rw [List.cons_append] at h
    rcases infix_cons_cases h with h | h
    · exfalso
      apply hov
      rw [← List.cons_append] at h
      rcases prefix_or_prefix h (List.prefix_append (b :: m) x) with h1 | h1
      · exact Or.inl (h1.isInfix.trans hm.isInfix)
      · exact Or.inr (Or.inr (Or.inr ⟨b :: m, by simp, h1, hm⟩))
    · exact ih hm' h

/-- No occurrence of `old` is left by the replacement when `old` and `new` do
not overlap. -/
theorem not_infix_stringsReplaceFrom (old new : List Char) (hold : old ≠ [])
    (hov : ¬ overlap old new) (n : Nat) :
    ∀ t : List Char, t.length ≤ n → ¬ old <:+: stringsReplaceFrom old new 0 t := by
  induction n with
  | zero =>
    intro t ht h
    have : t = [] := List.length_eq_zero.mp (Nat.le_zero.mp ht)
    subst this
    simp only [stringsReplaceFrom] at h
    exact hold (List.infix_nil.mp h)
  | succ n ih =>
    intro t ht h
    cases t with
    | nil =>
      simp only [stringsReplaceFrom] at h
      exact hold (List.infix_nil.mp h)
    | cons c t =>
      have hlen : t.length ≤ n := by simpa using ht
      by_cases hm : old.isPrefixOf (c :: t) = true
      · rw [stringsReplaceFrom_match old new c t hm, stringsReplaceFrom_drop] at h
        have h2 := infix_of_infix_append_suffix old new hov new (List.suffix_refl _) _ h
        exact ih (t.drop (old.length - 1)) (by simp; omega) h2
      · rw [stringsReplaceFrom_nomatch old new c t hm] at h
        rcases infix_cons_cases h with h | h
        · cases hold' : old with
          | nil => exact hold hold'
          | cons a s =>
            rw [hold', List.cons_prefix_cons] at h
            have h3 := rest_prefix_of_stringsReplaceFrom old new hov t [a] s hold' (by simp)
              (by rw [hold']; exact h.2)
            apply hm
            rw [List.isPrefixOf_iff_prefix, hold', List.cons_prefix_cons]
            exact ⟨h.1, h3⟩
        · exact ih t hlen h

/-- The replacement of a non-empty `old` by a `new` it does not overlap leaves
no occurrence of `old`. -/
theorem not_infix_stringsReplaceAll (s old new : List Char) (hold : old ≠ [])
    (hov : ¬ overlap old new) : ¬ old <:+: stringsReplaceAll s old new := by
  unfold stringsReplaceAll
  have heq : old ≠ new := fun heq => hov (Or.inl (heq ▸ List.infix_refl _))
  rw [if_neg heq, if_neg hold]
  exact not_infix_stringsReplaceFrom old new hold hov s.length s (Nat.le_refl _)


/-- Replacement leaves the new text wherever the old one occurred. -/
theorem new_infix_stringsReplaceFrom (old new : List Char) (hold : old ≠ []) (t : List Char)
    (h : old <:+: t) : new <:+: stringsReplaceFrom old new 0 t := by
  induction t with
  | nil =>
    exact absurd (List.infix_nil.mp h) hold
  | cons c t ih =>
    by_cases hp : old.isPrefixOf (c :: t) = true
    · rw [stringsReplaceFrom_match old new c t hp]
      exact (List.prefix_append new _).isInfix
    · rw [stringsReplaceFrom_nomatch old new c t hp]
      rcases infix_cons_cases h with h | h
      · exact absurd (List.isPrefixOf_iff_prefix.mpr h) hp
      · exact (ih h).trans (List.infix_cons (List.infix_refl _))

/-- The replacement of a non-empty `old` puts `new` wherever `old` occurred. -/
theorem new_infix_stringsReplaceAll (s old new : List Char) (hold : old ≠ [])
    (h : old <:+: s) : new <:+: stringsReplaceAll s old new := by
  unfold stringsReplaceAll
  by_cases heq : old = new
  · rw [if_pos heq]
    exact heq ▸ h
  · rw [if_neg heq, if_neg hold]
    exact new_infix_stringsReplaceFrom old new hold s h

/-- A replacement brings in no character that is neither in the text nor in
the new text. -/
theorem mem_stringsReplaceFrom (old new : List Char) (x : Char) (t : List Char) :
    ∀ k, x ∈ stringsReplaceFrom old new k t → x ∈ t ∨ x ∈ new := by
  induction t with
  | nil =>
    intro k h
    simp [stringsReplaceFrom] at h
  | cons c t ih =>
    intro k h
    cases k with
    | succ k =>
      simp only [stringsReplaceFrom] at h
      rcases ih k h with h | h
      · exact Or.inl (List.mem_cons_of_mem _ h)
      · exact Or.inr h
    | zero =>
      by_cases hm : old.isPrefixOf (c :: t) = true
      · rw [stringsReplaceFrom_match old new c t hm, List.mem_append] at h
        rcases h with h | h
        · exact Or.inr h
        · rcases ih _ h with h | h
          · exact Or.inl (List.mem_cons_of_mem _ h)
          · exact Or.inr h
      · rw [stringsReplaceFrom_nomatch old new c t hm, List.mem_cons] at h
        rcases h with h | h
        · exact Or.inl (h ▸ List.mem_cons_self _ _)
        · rcases ih _ h with h | h
          · exact Or.inl (List.mem_cons_of_mem _ h)
          · exact Or.inr h

/-- A text without the character `d` that starts `x ++ d :: y` starts `x`. -/
theorem prefix_of_prefix_append_delim (d : Char) (old : List Char) (hd : d ∉ old)
    (x y : List Char) (h : old <+: x ++ d :: y) : old <+: x := by
  induction x generalizing old with
  | nil =>
    cases old with
    | nil => exact List.nil_prefix
    | cons a old =>
      rw [List.nil_append, List.cons_prefix_cons] at h
      exact absurd (h.1 ▸ List.mem_cons_self _ _) hd
  | cons c x ih =>
    cases old with
    | nil => exact List.nil_prefix
    | cons a old =>
      rw [List.cons_append, List.cons_prefix_cons] at h
      rw [List.cons_prefix_cons]
      exact ⟨h.1, ih old (fun hm => hd (List.mem_cons_of_mem _ hm)) h.2⟩

/-- A character that is not in `old` cuts the replacement in two. -/
theorem stringsReplaceFrom_append_delim (old new : List Char) (hold : old ≠ []) (d : Char)
    (hd : d ∉ old) (y : List Char) (n : Nat) :
    ∀ x : List Char, x.length ≤ n →
      stringsReplaceFrom old new 0 (x ++ d :: y)
        = stringsReplaceFrom old new 0 x ++ d :: stringsReplaceFrom old new 0 y := by
  induction n with
  | zero =>
    intro x hx
    have : x = [] := List.length_eq_zero.mp (Nat.le_zero.mp hx)
    subst this
    have hm : ¬ old.isPrefixOf (d :: y) = true := by
      intro hm
      have h := prefix_of_prefix_append_delim d old hd [] y (List.isPrefixOf_iff_prefix.mp hm)
      exact hold (List.prefix_nil.mp h)
    rw [List.nil_append, stringsReplaceFrom_nomatch old new d y hm]
    simp [stringsReplaceFrom]
  | succ n ih =>
    intro x hx
    cases x with
    | nil => exact ih [] (Nat.zero_le _)
    | cons c x =>
      have hlen : x.length ≤ n := by simpa using hx
      by_cases hm : old.isPrefixOf (c :: (x ++ d :: y)) = true
      · have hp : old <+: c :: x :=
          prefix_of_prefix_append_delim d old hd (c :: x) y (List.isPrefixOf_iff_prefix.mp hm)
        have hm' : old.isPrefixOf (c :: x) = true := List.isPrefixOf_iff_prefix.mpr hp
        have hle : old.length - 1 ≤ x.length := by
          have := hp.length_le
          simp at this
          omega
        rw [List.cons_append, stringsReplaceFrom_match old new c _ hm,
          stringsReplaceFrom_match old new c x hm', stringsReplaceFrom_drop,
          stringsReplaceFrom_drop old new _ x, List.drop_append_of_le_length hle,
          ih (x.drop (old.length - 1)) (by simp; omega), List.append_assoc]
      · have hm' : ¬ old.isPrefixOf (c :: x) = true := by
          intro hm'
          apply hm
          rw [List.isPrefixOf_iff_prefix] at hm' ⊢
          exact hm'.trans (List.prefix_append (c :: x) (d :: y))
        rw [List.cons_append, stringsReplaceFrom_nomatch old new c _ hm,
          stringsReplaceFrom_nomatch old new c x hm', ih x hlen, List.cons_append]

/-- The replacement of `old` in `old` itself is `new`. -/
theorem stringsReplaceFrom_self (old new : List Char) (hold : old ≠ []) :
    stringsReplaceFrom old new 0 old = new := by
  cases h : old with
  | nil => exact absurd h hold
  | cons a s =>
    have hm : (a :: s).isPrefixOf (a :: s) = true :=
      List.isPrefixOf_iff_prefix.mpr (List.prefix_refl _)
    rw [stringsReplaceFrom_match (a :: s) new a s hm, stringsReplaceFrom_drop]
    simp [stringsReplaceFrom]

/-- The replacement in a text that ends with `old` between two characters `d`
that are not in `old`. -/
theorem stringsReplaceFrom_quoted (old new : List Char) (hold : old ≠ []) (d : Char)
    (hd : d ∉ old) (x : List Char) :
    stringsReplaceFrom old new 0 (x ++ d :: (old ++ [d]))
      = stringsReplaceFrom old new 0 x ++ d :: (new ++ [d]) := by
  rw [stringsReplaceFrom_append_delim old new hold d hd _ x.length x (Nat.le_refl _)]
  have h : old ++ [d] = old ++ d :: [] := rfl
  rw [h, stringsReplaceFrom_append_delim old new hold d hd [] old.length old (Nat.le_refl _),
    stringsReplaceFrom_self old new hold]
  simp [stringsReplaceFrom]

/-! ## Lemmas on `fmt.Sprintf` -/

/-- A format without `%` is written as it is. -/
theorem doPrintf_of_no_percent (s : List Char) (h : '%' ∉ s) : doPrintf 0 s = s := by
  induction s with
  | nil => rfl
  | cons c t ih =>
    have hc : c ≠ '%' := fun e => h (e ▸ List.mem_cons_self _ _)
    simp only [doPrintf, hc, if_false]
    rw [ih (fun hm => h (List.mem_cons_of_mem _ hm))]

/-! ## Lemmas on quoting -/

/-- A printable ASCII character other than the double quote and the backslash
is kept as it is by `strconv.Quote`. -/
theorem appendEscapedRune_plain (table : Char → Bool) (r : Char)
    (h : 0x20 ≤ r.toNat ∧ r.toNat < 0x7F ∧ r ≠ Char.ofNat 34 ∧ r ≠ Char.ofNat 92) :
    appendEscapedRune table r = [r] := by
  obtain ⟨h1, h2, h3, h4⟩ := h
  have hp : IsPrint table r = true := by
    unfold IsPrint
    have : r.toNat ≤ 0xFF := by omega
    simp [this, h1, h2]
  unfold appendEscapedRune
  simp [h3, h4, hp]

/-- A string none of whose characters is escaped stands verbatim between the
quotes. -/
theorem strconvQuote_verbatim (table : Char → Bool) (s : List Char)
    (h : ∀ r ∈ s, appendEscapedRune table r = [r]) :
    strconvQuote table s = Char.ofNat 34 :: (s ++ [Char.ofNat 34]) := by
  unfold strconvQuote
  have : s.flatMap (appendEscapedRune table) = s := by
    induction s with
    | nil => rfl
    | cons c t ih =>
      rw [List.flatMap_cons, h c (List.mem_cons_self _ _),
        ih (fun r hr => h r (List.mem_cons_of_mem _ hr))]
      rfl
  rw [this]
  rfl

theorem lowerhex_ne_percent (n : Nat) : lowerhex n ≠ '%' := by
  unfold lowerhex
  have h : n % 16 < 16 := Nat.mod_lt n (by norm_num)
  generalize n % 16 = k at h
  interval_cases k <;> decide

theorem percent_not_mem_lowerhex (a : List Char) (ha : '%' ∉ a) (l : List Nat) :
    '%' ∉ a ++ l.map lowerhex := by
  intro h
  rcases List.mem_append.mp h with h | h
  · exact ha h
  · obtain ⟨n, _, hn⟩ := List.mem_map.mp h
    exact lowerhex_ne_percent n hn

theorem mem_ite_cases {p : Prop} [Decidable p] {x : Char} {a b : List Char}
    (h : x ∈ if p then a else b) : x ∈ a ∨ x ∈ b := by
  by_cases hp : p
  · rw [if_pos hp] at h
    exact Or.inl h
  · rw [if_neg hp] at h
    exact Or.inr h

/-- Quoting writes a `%` only for a `%`. -/
theorem percent_mem_appendEscapedRune (table : Char → Bool) (r : Char)
    (h : '%' ∈ appendEscapedRune table r) : r = '%' := by
  unfold appendEscapedRune at h
  rcases mem_ite_cases h with h | h
  · rcases List.mem_cons.mp h with h | h
    · exact absurd h (by decide)
    · exact (List.mem_singleton.mp h).symm
  rcases mem_ite_cases h with h | h
  · exact (List.mem_singleton.mp h).symm
  rcases mem_ite_cases h with h | h
  · exact absurd h (by decide)
  rcases mem_ite_cases h with h | h
  · exact absurd h (by decide)
  rcases mem_ite_cases h with h | h
  · exact absurd h (by decide)
  rcases mem_ite_cases h with h | h
  · exact absurd h (by decide)
  rcases mem_ite_cases h with h | h
  · exact absurd h (by decide)
  rcases mem_ite_cases h with h | h
  · exact absurd h (by decide)
  rcases mem_ite_cases h with h | h
  · exact absurd h (by decide)
  rcases mem_ite_cases h with h | h
  · exact absurd h (percent_not_mem_lowerhex [Char.ofNat 92, 'x'] (by decide)
      [r.toNat / 16, r.toNat])
  rcases mem_ite_cases h with h | h
  · exact absurd h (percent_not_mem_lowerhex [Char.ofNat 92, 'u'] (by decide)
      [r.toNat / 4096, r.toNat / 256, r.toNat / 16, r.toNat])
  · exact absurd h (percent_not_mem_lowerhex [Char.ofNat 92, 'U'] (by decide)
      [r.toNat / 268435456, r.toNat / 16777216, r.toNat / 1048576, r.toNat / 65536,
        r.toNat / 4096, r.toNat / 256, r.toNat / 16, r.toNat])

/-- A quoted text holds a `%` only when the text does. -/
theorem percent_mem_strconvQuote (table : Char → Bool) (s : List Char)
    (h : '%' ∈ strconvQuote table s) : '%' ∈ s := by
  unfold strconvQuote at h
  simp only [List.mem_append, List.mem_flatMap, List.mem_singleton] at h
  rcases h with (h | ⟨r, hr, hm⟩) | h
  · exact absurd h (by decide)
  · exact percent_mem_appendEscapedRune table r hm ▸ hr
  · exact absurd h (by decide)

/-- The double quote is escaped by `strconv.Quote`. -/
theorem quote_not_mem_of_verbatim (table : Char → Bool) (s : List Char)
    (h : ∀ r ∈ s, appendEscapedRune table r = [r]) : Char.ofNat 34 ∉ s := by
  intro hm
  have h1 := h _ hm
  have h2 : appendEscapedRune table (Char.ofNat 34) = [Char.ofNat 92, Char.ofNat 34] := by
    simp [appendEscapedRune]
  rw [h2] at h1
  simp at h1

theorem data_ne_nil_of_ne_empty (s : String) (h : s ≠ "") : s.data ≠ [] := by
  intro hd
  apply h
  cases s
  simp_all

/-! ## Lemmas on maps and on decoding -/

theorem Object.get_set (m : Object) (k k' : String) (v : GoValue) :
    (m.set k v).get k' = if k = k' then some v else m.get k' := by
  induction m with
  | nil => simp [Object.set, Object.get]
  | cons p rest ih =>
    obtain ⟨a, x⟩ := p
    by_cases ha : a = k
    · subst ha
      simp only [Object.set, Object.get, if_true]
      by_cases hk : a = k' <;> simp [hk]
    · by_cases hk : k = k'
      · subst hk
        simp [Object.set, Object.get, ha, ih]
      · simp [Object.set, Object.get, ha, ih, hk]

theorem lastMember_cons (k : String) (j : JSON) (rest : List (String × JSON)) (key : String) :
    lastMember ((k, j) :: rest) key =
      match lastMember rest key with
      | some j' => some j'
      | none => if k = key then some j else none := rfl

theorem decodeMembers_cons (k : String) (j : JSON) (ms : List (String × JSON)) (acc : Object) :
    decodeMembers ((k, j) :: ms) acc =
      match decodeValue j with
      | .error err => .error err
      | .ok v => decodeMembers ms (Object.set acc k v) := by
  rw [decodeMembers]
  cases decodeValue j <;> rfl

/-- The map decoded from the members of an object holds, under every key, the
decoded last member of that key. -/
theorem decodeMembers_get (ms : List (String × JSON)) (acc m : Object) (key : String)
    (h : decodeMembers ms acc = .ok m) :
    m.get key =
      match lastMember ms key with
      | some j => (decodeValue j).toOption
      | none => acc.get key := by
  induction ms generalizing acc with
  | nil =>
    simp only [decodeMembers] at h
    cases h
    rfl
  | cons p rest ih =>
    obtain ⟨k, j⟩ := p
    rw [decodeMembers_cons] at h
    cases hj : decodeValue j with
    | error err => rw [hj] at h; cases h
    | ok v =>
      rw [hj] at h
      simp only [] at h
      rw [ih _ h, lastMember_cons]
      cases lastMember rest key with
      | some j' => rfl
      | none =>
        simp only [Object.get_set]
        by_cases hk : k = key
        · simp [hk, hj, Except.toOption]
        · simp [hk]

/-- Every member in effect of a decoded object was itself decoded. -/
theorem decodeMembers_member_ok (ms : List (String × JSON)) (acc m : Object)
    (h : decodeMembers ms acc = .ok m) (key : String) (j : JSON)
    (hj : lastMember ms key = some j) : ∃ g, decodeValue j = .ok g := by
  induction ms generalizing acc with
  | nil => simp [lastMember] at hj
  | cons p rest ih =>
    obtain ⟨k, j0⟩ := p
    rw [decodeMembers_cons] at h
    cases hj0 : decodeValue j0 with
    | error err => rw [hj0] at h; cases h
    | ok v =>
      rw [hj0] at h
      simp only [] at h
      rw [lastMember_cons] at hj
      cases hl : lastMember rest key with
      | some j' =>
        rw [hl] at hj
        simp only [Option.some.injEq] at hj
        subst hj
        exact ih _ h hl
      | none =>
        rw [hl] at hj
        simp only [] at hj
        split_ifs at hj with hk
        simp only [Option.some.injEq] at hj
        subst hj
        exact ⟨v, hj0⟩

/-- Only a JSON object decodes to a map. -/
theorem decodeValue_map (j : JSON) (entries : Object) (h : decodeValue j = .ok (.map entries)) :
    ∃ ds, j = .object ds ∧ decodeMembers ds [] = .ok entries := by
  cases j with
  | null => simp [decodeValue] at h
  | bool b => simp [decodeValue] at h
  | number n =>
    simp only [decodeValue] at h
    split_ifs at h
    simp at h
  | string s => simp [decodeValue] at h
  | array es =>
    simp only [decodeValue] at h
    cases hd : decodeElems es with
    | error err => rw [hd] at h; simp [Except.map] at h
    | ok vs => rw [hd] at h; simp [Except.map] at h
  | object ds =>
    simp only [decodeValue] at h
    cases hd : decodeMembers ds [] with
    | error err => rw [hd] at h; simp [Except.map] at h
    | ok vs =>
      rw [hd] at h
      simp [Except.map] at h
      exact ⟨ds, rfl, by subst h; exact hd⟩

/-- A JSON object decodes to a map of its decoded members, when they decode. -/
theorem decodeValue_object (ds : List (String × JSON)) (g : GoValue)
    (h : decodeValue (.object ds) = .ok g) :
    ∃ entries, g = .map entries ∧ decodeMembers ds [] = .ok entries := by
  simp only [decodeValue] at h
  cases hd : decodeMembers ds [] with
  | error err => rw [hd] at h; simp [Except.map] at h
  | ok vs =>
    rw [hd] at h
    simp [Except.map] at h
    exact ⟨vs, h.symm, rfl⟩

/-! ## The run of `main`, step by step -/

theorem deferredLogout_eq (e : Expo) (w : World) :
    deferredLogout e w = if e.Method = EjectMethod.ExpoKit then [Action.run e.logout] else [] := by
  unfold deferredLogout
  cases w.logoutErr <;> simp

theorem patchPackageJSON_eq (cfg : Config) (w : World) (p : Proc) :
    patchPackageJSON cfg w p =
      match patchContent cfg w with
      | none => .error (p.exec Action.readPackageJSON)
      | some v =>
        if w.writeErr ≠ none then
          .error ((p.exec Action.readPackageJSON).exec (Action.writePackageJSON v))
        else .ok ((p.exec Action.readPackageJSON).exec (Action.writePackageJSON v)) := by
  unfold patchPackageJSON patchContent
  cases w.packageJSON with
  | error err => rfl
  | ok bytes =>
    cases bytes with
    | notJSON => rfl
    | json doc =>
      simp only []
      cases jsonUnmarshal doc with
      | error err => rfl
      | ok packages =>
        simp only []
        cases packages.getObject "dependencies" with
        | error err => rfl
        | ok deps =>
          simp only []
          cases w.writeErr <;> simp

theorem main_eq_mainSteps (cfg : Config) (w : World) :
    main (.ok cfg) w = mainSteps cfg w := by
  unfold main mainSteps
  simp only [failf, osExit, Proc.exec, Proc.defer, returnFromMain, patchPackageJSON_eq,
    Config.installStep, Config.loginStep, Config.ejectStep,
    Config.publishStep, Config.logoutStep, Config.expo]
  cases hv : validateUserNameAndpassword cfg.UserName cfg.Password <;> try simp
  cases hd : validateWorkdir w cfg.Workdir <;> try simp
  cases hi : w.installErr <;> try simp
  by_cases hu : cfg.UserName = "" <;> cases hl : w.loginErr <;> (try simp [hu]) <;>
  cases he : w.ejectErr <;> (try simp) <;>
  by_cases hp : cfg.RunPublish = "yes" <;> cases hpe : w.publishErr <;> (try simp [hp]) <;>
  by_cases hf : cfg.ForceReactNativeVersion = "" <;> (try simp [hf, deferredLogout_eq]) <;>
  cases hc : patchContent cfg w <;> (try simp) <;>
  cases hw : w.writeErr <;> simp [deferredLogout_eq]

/-- A run all of whose steps succeed. -/
theorem mainSteps_success (cfg : Config) (w : World) (v : GoValue)
    (hsteps : published cfg w)
    (hpatch : cfg.ForceReactNativeVersion ≠ "" → patchContent cfg w = some v ∧ w.writeErr = none) :
    mainSteps cfg w =
      ⟨0, cfg.installStep ++ cfg.loginStep ++ cfg.ejectStep ++ cfg.publishStep
        ++ (if cfg.ForceReactNativeVersion ≠ "" then
              [Action.readPackageJSON, Action.writePackageJSON v]
            else [])
        ++ cfg.logoutStep⟩ := by
  obtain ⟨⟨⟨⟨hcred, hdir⟩, hinstall, hlogin⟩, heject⟩, hpublish⟩ := hsteps
  unfold mainSteps
  have h4 : ¬ (cfg.UserName ≠ "" ∧ w.loginErr ≠ none) := fun h => h.2 (hlogin h.1)
  have h6 : ¬ (cfg.RunPublish = "yes" ∧ w.publishErr ≠ none) := fun h => h.2 (hpublish h.1)
  simp only [hcred, hdir, hinstall, heject, ne_eq, not_true_eq_false, if_false, h4, h6]
  by_cases hf : cfg.ForceReactNativeVersion = ""
  · simp [hf]
  · obtain ⟨hc, hw⟩ := hpatch hf
    simp [hf, hc, hw]

/-- Every action of a run belongs to one of its steps; a write carries the
content the patch block computed. -/
theorem mem_mainSteps_trace (cfg : Config) (w : World) (a : Action)
    (h : a ∈ (mainSteps cfg w).trace) :
    a ∈ cfg.installStep ∨ a ∈ cfg.loginStep ∨ a ∈ cfg.ejectStep ∨ a ∈ cfg.publishStep ∨
      a = Action.readPackageJSON ∨
      (∃ v, patchContent cfg w = some v ∧ a = Action.writePackageJSON v) ∨
      a ∈ cfg.logoutStep := by
  unfold mainSteps at h
  split_ifs at h <;> (try split at h) <;>
    simp only [List.mem_append, List.mem_cons, List.mem_singleton, List.not_mem_nil,
      or_false] at h
  all_goals first
    | (clear * - h
       tauto)
    | (rename_i v hv
       have hw : a = Action.writePackageJSON v →
           ∃ v, patchContent cfg w = some v ∧ a = Action.writePackageJSON v :=
         fun e => ⟨v, hv, e⟩
       generalize (∃ v, patchContent cfg w = some v ∧ a = Action.writePackageJSON v) = q
         at hw ⊢
       clear * - h hw
       tauto)

/-- Every command a run executes is one of the five commands of the run. -/
theorem run_mem_mainSteps (cfg : Config) (w : World) (c : Command)
    (h : Action.run c ∈ (mainSteps cfg w).trace) :
    c = cfg.expo.installExpoCLI ∨ c = cfg.expo.login cfg.UserName cfg.Password ∨
      c = cfg.expo.eject ∨ c = cfg.expo.publish ∨ c = cfg.expo.logout := by
  rcases mem_mainSteps_trace cfg w _ h with hm | hm | hm | hm | hm | hm | hm
  · simp [Config.installStep] at hm
    exact Or.inl hm
  · unfold Config.loginStep at hm
    split_ifs at hm <;> simp at hm
    exact Or.inr (Or.inl hm)
  · simp [Config.ejectStep] at hm
    exact Or.inr (Or.inr (Or.inl hm))
  · unfold Config.publishStep at hm
    split_ifs at hm <;> simp at hm
    exact Or.inr (Or.inr (Or.inr (Or.inl hm)))
  · simp at hm
  · obtain ⟨v, _, hv⟩ := hm
    simp at hv
  · unfold Config.logoutStep at hm
    split_ifs at hm <;> simp at hm
    exact Or.inr (Or.inr (Or.inr (Or.inr hm)))

/-! ## Lemmas on the patch block -/

/-- The patch block computes its content from a document `json.Unmarshal`
accepts and whose "dependencies" member is an object. -/
theorem patchContent_of_object (cfg : Config) (w : World) (ms ds : List (String × JSON))
    (packages : Object)
    (hfile : w.packageJSON = .ok (.json (.object ms)))
    (hdeps : lastMember ms "dependencies" = some (.object ds))
    (hdec : jsonUnmarshal (.object ms) = .ok packages) :
    ∃ deps : Object, decodeMembers ds [] = .ok deps ∧
      patchContent cfg w = some (GoValue.map (packages.set "dependencies"
        (GoValue.map (deps.set "react-native" (GoValue.string cfg.ForceReactNativeVersion))))) := by
  have hdec' : decodeMembers ms [] = .ok packages := hdec
  obtain ⟨g, hg⟩ := decodeMembers_member_ok ms [] packages hdec' "dependencies" _ hdeps
  obtain ⟨deps, hgd, hdd⟩ := decodeValue_object ds g hg
  subst hgd
  have hget := decodeMembers_get ms [] packages "dependencies" hdec'
  rw [hdeps] at hget
  simp only [hg, Except.toOption] at hget
  refine ⟨deps, hdd, ?_⟩
  unfold patchContent
  simp only [hfile, hdec, Object.getObject, hget]

/-- The patch block computes no content from a missing or unreadable file, from
bytes that are not JSON, from a value that is not an object, or from an object
without an object under "dependencies". -/
theorem patchContent_none (cfg : Config) (w : World)
    (hbad : (∃ err, w.packageJSON = .error err) ∨ w.packageJSON = .ok .notJSON ∨
      (∃ doc, w.packageJSON = .ok (.json doc) ∧ ∀ ms, doc ≠ .object ms) ∨
      (∃ ms, w.packageJSON = .ok (.json (.object ms)) ∧
        (lastMember ms "dependencies" = none ∨
          ∃ j, lastMember ms "dependencies" = some j ∧ ∀ ds, j ≠ .object ds))) :
    patchContent cfg w = none := by
  unfold patchContent
  rcases hbad with ⟨err, h⟩ | h | ⟨doc, h, hdoc⟩ | ⟨ms, h, hms⟩
  · rw [h]
  · rw [h]
  · rw [h]
    cases doc with
    | null => simp [jsonUnmarshal, Object.getObject, Object.get]
    | bool b => simp [jsonUnmarshal]
    | number n => simp [jsonUnmarshal]
    | string s => simp [jsonUnmarshal]
    | array es => simp [jsonUnmarshal]
    | object ms => exact absurd rfl (hdoc ms)
  · rw [h]
    simp only []
    cases hdec : jsonUnmarshal (.object ms) with
    | error err => rfl
    | ok packages =>
      have hdec' : decodeMembers ms [] = .ok packages := hdec
      have hget := decodeMembers_get ms [] packages "dependencies" hdec'
      simp only []
      rcases hms with hnone | ⟨j, hj, hnot⟩
      · rw [hnone] at hget
        simp only [Object.get] at hget
        simp [Object.getObject, hget]
      · rw [hj] at hget
        simp only [] at hget
        cases hv : decodeValue j with
        | error err =>
          rw [hv] at hget
          simp [Object.getObject, hget, Except.toOption]
        | ok gv =>
          rw [hv] at hget
          simp only [Except.toOption] at hget
          cases gv with
          | map entries =>
            obtain ⟨ds, hds, _⟩ := decodeValue_map j entries hv
            exact absurd hds (hnot ds)
          | nil => simp [Object.getObject, hget]
          | bool b => simp [Object.getObject, hget]
          | float64 n => simp [Object.getObject, hget]
          | string s => simp [Object.getObject, hget]
          | slice es => simp [Object.getObject, hget]

/-! ## Claims on validation and the commands -/

/-- C3: `validateUserNameAndpassword` returns an error if and only if exactly
one of user name and password is the empty string; it returns nil when both are
empty and when both are non-empty. -/
theorem validateUserNameAndpassword_error_iff (userName password : String) :
    (validateUserNameAndpassword userName password ≠ none ↔
        (userName = "" ∧ password ≠ "") ∨ (userName ≠ "" ∧ password = "")) ∧
      (userName = "" ∧ password = "" → validateUserNameAndpassword userName password = none) ∧
      (userName ≠ "" ∧ password ≠ "" → validateUserNameAndpassword userName password = none) := by
  unfold validateUserNameAndpassword
  by_cases hu : userName = "" <;> by_cases hp : password = "" <;> simp [hu, hp]

/-- C9: `installExpoCLI` runs npm with exactly the arguments `install -g expo-cli`
when the version is "latest", and `install -g expo-cli@<version>` for every other
version; the comparison with "latest" is exact and case-sensitive. -/
theorem installExpoCLI_args :
    (∀ e : Expo, e.installExpoCLI.name = "npm" ∧
      (e.Version = "latest" → e.installExpoCLI.args = ["install", "-g", "expo-cli"]) ∧
      (e.Version ≠ "latest" →
        e.installExpoCLI.args = ["install", "-g", "expo-cli@" ++ e.Version])) ∧
    (∀ (m : EjectMethod) (dir : String),
      (Expo.installExpoCLI ⟨"3.2.1", m, dir⟩).args = ["install", "-g", "expo-cli@3.2.1"] ∧
      (Expo.installExpoCLI ⟨"Latest", m, dir⟩).args = ["install", "-g", "expo-cli@Latest"] ∧
      (Expo.installExpoCLI ⟨"LATEST", m, dir⟩).args = ["install", "-g", "expo-cli@LATEST"]) := by
  refine ⟨fun e => ⟨rfl, fun h => ?_, fun h => ?_⟩, fun m dir => ⟨?_, ?_, ?_⟩⟩
  · simp [Expo.installExpoCLI, h]
  · simp [Expo.installExpoCLI, h]
  · simp [Expo.installExpoCLI]
  · simp [Expo.installExpoCLI]
  · simp [Expo.installExpoCLI]

/-! ## Claims on the sequence of steps -/

/-- C5: when validation passes and every invoked command and the manifest patch
succeed, `main` performs exactly: install; login iff the user name is non-empty;
eject; publish iff `RunPublish` is "yes"; the patch (read, then write) iff
`ForceReactNativeVersion` is non-empty; logout iff the user name is non-empty;
and the process ends with status 0. -/
theorem main_success_sequence (cfg : Config) (w : World) (v : GoValue)
    (hsteps : published cfg w)
    (hpatch : cfg.ForceReactNativeVersion ≠ "" → patchContent cfg w = some v ∧ w.writeErr = none) :
    (main (.ok cfg) w).code = 0 ∧
      (main (.ok cfg) w).trace =
        [Action.run cfg.expo.installExpoCLI]
          ++ (if cfg.UserName ≠ "" then [Action.run (cfg.expo.login cfg.UserName cfg.Password)]
              else [])
          ++ [Action.run cfg.expo.eject]
          ++ (if cfg.RunPublish = "yes" then [Action.run cfg.expo.publish] else [])
          ++ (if cfg.ForceReactNativeVersion ≠ "" then
                [Action.readPackageJSON, Action.writePackageJSON v]
              else [])
          ++ (if cfg.UserName ≠ "" then [Action.run cfg.expo.logout] else []) := by
  rw [main_eq_mainSteps, mainSteps_success cfg w v hsteps hpatch]
  simp [Config.installStep, Config.loginStep, Config.ejectStep, Config.publishStep,
    Config.logoutStep]

/-- Witness of C5: scenario A yields install, eject; scenario B yields
install, login, eject, publish, logout; both end with status 0. -/
theorem main_success_sequence_witness :
    ((main (.ok scenarioA) okWorld).code = 0 ∧
      (main (.ok scenarioA) okWorld).trace = [Action.run installA, Action.run ejectA]) ∧
    ((main (.ok scenarioB) okWorld).code = 0 ∧
      (main (.ok scenarioB) okWorld).trace =
        [Action.run installB, Action.run loginB, Action.run ejectB, Action.run publishCmd,
          Action.run logoutCmd]) :=
  ⟨main_success_sequence scenarioA okWorld GoValue.nil
      ⟨⟨⟨⟨rfl, rfl⟩, rfl, fun _ => rfl⟩, rfl⟩, fun _ => rfl⟩ (fun h => absurd rfl h),
    main_success_sequence scenarioB okWorld GoValue.nil
      ⟨⟨⟨⟨rfl, rfl⟩, rfl, fun _ => rfl⟩, rfl⟩, fun _ => rfl⟩ (fun h => absurd rfl h)⟩

/-- C6: when a fatal step fails (credential validation, workdir validation,
install, login, eject, publish, or the manifest patch at its read/parse or at
its write), the process ends with status 1 and the failed step's action is the
last one performed: no later step is invoked.  A validation failure leaves the
trace empty; an eject failure leaves neither publish nor patch in it. -/
theorem fatal_failure_stops_run (cfg : Config) (w : World) :
    (validateUserNameAndpassword cfg.UserName cfg.Password ≠ none →
        main (.ok cfg) w = ⟨1, []⟩) ∧
    (validateUserNameAndpassword cfg.UserName cfg.Password = none →
        validateWorkdir w cfg.Workdir ≠ none → main (.ok cfg) w = ⟨1, []⟩) ∧
    (validated cfg w → w.installErr ≠ none →
        main (.ok cfg) w = ⟨1, cfg.installStep⟩) ∧
    (validated cfg w → w.installErr = none → cfg.UserName ≠ "" → w.loginErr ≠ none →
        main (.ok cfg) w = ⟨1, cfg.installStep ++ cfg.loginStep⟩) ∧
    (loggedIn cfg w → w.ejectErr ≠ none →
        main (.ok cfg) w = ⟨1, cfg.installStep ++ cfg.loginStep ++ cfg.ejectStep⟩) ∧
    (ejected cfg w → cfg.RunPublish = "yes" → w.publishErr ≠ none →
        main (.ok cfg) w =
          ⟨1, cfg.installStep ++ cfg.loginStep ++ cfg.ejectStep ++ cfg.publishStep⟩) ∧
    (published cfg w → cfg.ForceReactNativeVersion ≠ "" → patchContent cfg w = none →
        main (.ok cfg) w =
          ⟨1, cfg.installStep ++ cfg.loginStep ++ cfg.ejectStep ++ cfg.publishStep
            ++ [Action.readPackageJSON]⟩) ∧
    (∀ v, published cfg w → cfg.ForceReactNativeVersion ≠ "" → patchContent cfg w = some v →
        w.writeErr ≠ none →
        main (.ok cfg) w =
          ⟨1, cfg.installStep ++ cfg.loginStep ++ cfg.ejectStep ++ cfg.publishStep
            ++ [Action.readPackageJSON, Action.writePackageJSON v]⟩) := by
  rw [main_eq_mainSteps]
  unfold mainSteps validated loggedIn ejected published validated
  refine ⟨?_, ?_, ?_, ?_, ?_, ?_, ?_, ?_⟩
  · intro h
    simp [h]
  · intro h1 h2
    simp [h1, h2]
  · rintro ⟨h1, h2⟩ h3
    simp [h1, h2, h3]
  · rintro ⟨h1, h2⟩ h3 h4 h5
    simp [h1, h2, h3, h4, h5]
  · rintro ⟨⟨h1, h2⟩, h3, h4⟩ h5
    have h6 : ¬ (cfg.UserName ≠ "" ∧ w.loginErr ≠ none) := fun h => h.2 (h4 h.1)
    simp only [h1, h2, h3, ne_eq, not_true_eq_false, if_false, h6]
    simp [h5]
  · rintro ⟨⟨⟨h1, h2⟩, h3, h4⟩, h5⟩ h7 h8
    have h6 : ¬ (cfg.UserName ≠ "" ∧ w.loginErr ≠ none) := fun h => h.2 (h4 h.1)
    simp only [h1, h2, h3, h5, ne_eq, not_true_eq_false, if_false, h6]
    simp [h7, h8]
  · rintro ⟨⟨⟨⟨h1, h2⟩, h3, h4⟩, h5⟩, h9⟩ h7 h8
    have h6 : ¬ (cfg.UserName ≠ "" ∧ w.loginErr ≠ none) := fun h => h.2 (h4 h.1)
    have h10 : ¬ (cfg.RunPublish = "yes" ∧ w.publishErr ≠ none) := fun h => h.2 (h9 h.1)
    simp only [h1, h2, h3, h5, ne_eq, not_true_eq_false, if_false, h6, h10]
    simp [h7, h8]
  · rintro v ⟨⟨⟨⟨h1, h2⟩, h3, h4⟩, h5⟩, h9⟩ h7 h8 h11
    have h6 : ¬ (cfg.UserName ≠ "" ∧ w.loginErr ≠ none) := fun h => h.2 (h4 h.1)
    have h10 : ¬ (cfg.RunPublish = "yes" ∧ w.publishErr ≠ none) := fun h => h.2 (h9 h.1)
    simp only [h1, h2, h3, h5, ne_eq, not_true_eq_false, if_false, h6, h10]
    simp [h7, h8, h11]

/-- Witness of C6: in scenario B with a failing eject the run ends with status
1 right after eject: publish is not run. -/
theorem fatal_failure_stops_run_witness :
    main (.ok scenarioB) { okWorld with ejectErr := some "exit status 1" } =
      ⟨1, scenarioB.installStep ++ scenarioB.loginStep ++ scenarioB.ejectStep⟩ :=
  (fatal_failure_stops_run scenarioB { okWorld with ejectErr := some "exit status 1" }).2.2.2.2.1
    ⟨⟨rfl, rfl⟩, rfl, fun _ => rfl⟩ (by simp)

/-- C10: the exit of `main` (status and trace) is the same whatever the
outcome of the logout command, and a run whose other steps all succeed ends
with status 0 also when logout fails. -/
theorem logout_outcome_does_not_change_exit (parsed : Except String Config) (w : World)
    (a b : Option String) :
    main parsed { w with logoutErr := a } = main parsed { w with logoutErr := b } ∧
      ∀ (cfg : Config) (v : GoValue) (err : String),
        published cfg w →
        (cfg.ForceReactNativeVersion ≠ "" → patchContent cfg w = some v ∧ w.writeErr = none) →
        (main (.ok cfg) { w with logoutErr := some err }).code = 0 := by
  constructor
  · cases parsed with
    | error e => rfl
    | ok cfg =>
      rw [main_eq_mainSteps, main_eq_mainSteps]
      rfl
  · intro cfg v err hsteps hpatch
    rw [main_eq_mainSteps,
      mainSteps_success cfg { w with logoutErr := some err } v hsteps hpatch]

/-- Witness of C10: scenario B ends with status 0 also when logout fails. -/
theorem logout_outcome_does_not_change_exit_witness :
    (main (.ok scenarioB) { okWorld with logoutErr := some "exit status 1" }).code = 0 :=
  (logout_outcome_does_not_change_exit (.ok scenarioB) okWorld none none).2 scenarioB
    GoValue.nil "exit status 1" ⟨⟨⟨⟨rfl, rfl⟩, rfl, fun _ => rfl⟩, rfl⟩, fun _ => rfl⟩
    (fun h => absurd rfl h)

/-- C7: whenever a run gets as far as eject (validation, install and login
pass), `main` runs `expo eject` with `--eject-method expoKit` if the user name
is non-empty and with `--eject-method plain` if it is empty; an eject command
of a run never carries another method; and two runs whose configurations have
the same user name run eject with the same arguments, whatever their other
fields and whatever the outside world. -/
theorem eject_method_iff_userName (cfg cfg' : Config) (w w' : World) :
    (loggedIn cfg w → cfg.UserName ≠ "" →
      Action.run ⟨"expo", ["eject", "--non-interactive", "--eject-method", "expoKit"],
        cfg.Workdir⟩ ∈ (main (.ok cfg) w).trace) ∧
    (loggedIn cfg w → cfg.UserName = "" →
      Action.run ⟨"expo", ["eject", "--non-interactive", "--eject-method", "plain"],
        cfg.Workdir⟩ ∈ (main (.ok cfg) w).trace) ∧
    (∀ c, Action.run c ∈ (main (.ok cfg) w).trace → c.args.head? = some "eject" →
      (c.args = ["eject", "--non-interactive", "--eject-method", "expoKit"] ↔
          cfg.UserName ≠ "") ∧
        (c.args = ["eject", "--non-interactive", "--eject-method", "plain"] ↔
          cfg.UserName = "")) ∧
    (cfg.UserName = cfg'.UserName →
      ∀ c c', Action.run c ∈ (main (.ok cfg) w).trace → c.args.head? = some "eject" →
        Action.run c' ∈ (main (.ok cfg') w').trace → c'.args.head? = some "eject" →
        c.args = c'.args) := by
  have hdir : ∀ cfg : Config, cfg.expo.eject.dir = cfg.Workdir := by
    intro cfg
    by_cases hw : cfg.Workdir = "" <;> simp [Expo.eject, Config.expo, hw]
  have hrun : ∀ (cfg : Config) (w : World), loggedIn cfg w →
      Action.run cfg.expo.eject ∈ (main (.ok cfg) w).trace := by
    rintro cfg w ⟨⟨hcred, hdir⟩, hinstall, hlogin⟩
    have h4 : ¬ (cfg.UserName ≠ "" ∧ w.loginErr ≠ none) := fun h => h.2 (hlogin h.1)
    rw [main_eq_mainSteps]
    unfold mainSteps
    simp only [hcred, hdir, hinstall, ne_eq, not_true_eq_false, if_false, h4]
    split_ifs <;> (try split) <;> simp [Config.ejectStep]
  have key : ∀ (cfg : Config) (w : World) (c : Command),
      Action.run c ∈ (main (.ok cfg) w).trace → c.args.head? = some "eject" →
      c.args = ["eject", "--non-interactive", "--eject-method",
        if cfg.UserName ≠ "" then "expoKit" else "plain"] := by
    intro cfg w c hrun heject
    rw [main_eq_mainSteps] at hrun
    rcases run_mem_mainSteps cfg w c hrun with h | h | h | h | h
    · subst h
      unfold Expo.installExpoCLI at heject
      split_ifs at heject <;> simp at heject
    · subst h
      simp [Expo.login] at heject
    · subst h
      by_cases hu : cfg.UserName = "" <;>
        simp [Expo.eject, Config.expo, hu, EjectMethod.toString]
    · subst h
      simp [Expo.publish] at heject
    · subst h
      simp [Expo.logout] at heject
  refine ⟨?_, ?_, ?_, ?_⟩
  · intro hl hu
    have h := hrun cfg w hl
    have he : cfg.expo.eject =
        ⟨"expo", ["eject", "--non-interactive", "--eject-method", "expoKit"], cfg.Workdir⟩ := by
      rw [← hdir cfg]
      simp [Expo.eject, Config.expo, hu, EjectMethod.toString]
    rw [← he]
    exact h
  · intro hl hu
    have h := hrun cfg w hl
    have he : cfg.expo.eject =
        ⟨"expo", ["eject", "--non-interactive", "--eject-method", "plain"], cfg.Workdir⟩ := by
      rw [← hdir cfg]
      simp [Expo.eject, Config.expo, hu, EjectMethod.toString]
    rw [← he]
    exact h
  · intro c hc heject
    have h1 := key cfg w c hc heject
    by_cases hu : cfg.UserName = ""
    · simp only [hu, ne_eq, not_true_eq_false, if_false] at h1
      simp [h1, hu]
    · simp only [ne_eq, hu, not_false_eq_true, if_true] at h1
      simp [h1, hu]
  · intro he c c' hc heject hc' heject'
    rw [key cfg w c hc heject, key cfg' w' c' hc' heject', he]

/-- Witness of C7: scenario B (user name "alice") runs eject with "expoKit",
scenario A (no user name) runs it with "plain", and scenario C, which shares
only the user name with scenario B, runs it with the arguments of scenario B. -/
theorem eject_method_iff_userName_witness :
    Action.run ejectB ∈ (main (.ok scenarioB) okWorld).trace ∧
      Action.run ejectA ∈ (main (.ok scenarioA) okWorld).trace ∧
      Action.run ejectC ∈ (main (.ok scenarioC) okWorld).trace ∧
      ejectB.args = ejectC.args :=
  ⟨(eject_method_iff_userName scenarioB scenarioC okWorld okWorld).1
      ⟨⟨rfl, rfl⟩, rfl, fun _ => rfl⟩ (by decide),
    (eject_method_iff_userName scenarioA scenarioA okWorld okWorld).2.1
      ⟨⟨rfl, rfl⟩, rfl, fun _ => rfl⟩ rfl,
    (eject_method_iff_userName scenarioC scenarioB okWorld okWorld).1
      ⟨⟨rfl, rfl⟩, rfl, fun _ => rfl⟩ (by decide),
    (eject_method_iff_userName scenarioB scenarioC okWorld okWorld).2.2.2 rfl ejectB ejectC
      ((eject_method_iff_userName scenarioB scenarioC okWorld okWorld).1
        ⟨⟨rfl, rfl⟩, rfl, fun _ => rfl⟩ (by decide))
      rfl
      ((eject_method_iff_userName scenarioC scenarioB okWorld okWorld).1
        ⟨⟨rfl, rfl⟩, rfl, fun _ => rfl⟩ (by decide))
      rfl⟩

/-- C1 (what the code does): with credentials given and login done, a failing
eject ends the run with status 1 right after the eject command; the logout
command is not run, because `failf` leaves through `os.Exit`, which skips
the deferred logout.  No run that ends with a non-zero status runs logout. -/
theorem logout_skipped_when_eject_fails :
    (main (.ok scenarioB) { okWorld with ejectErr := some "exit status 1" }).code = 1 ∧
      (main (.ok scenarioB) { okWorld with ejectErr := some "exit status 1" }).trace =
        [Action.run installB, Action.run loginB, Action.run ejectB] ∧
      Action.run logoutCmd ∉
        (main (.ok scenarioB) { okWorld with ejectErr := some "exit status 1" }).trace ∧
      ∀ (cfg : Config) (w : World), (main (.ok cfg) w).code ≠ 0 →
        Action.run cfg.expo.logout ∉ (main (.ok cfg) w).trace := by
  have h : (main (.ok scenarioB) { okWorld with ejectErr := some "exit status 1" }).trace =
      [Action.run installB, Action.run loginB, Action.run ejectB] := rfl
  refine ⟨rfl, h, ?_, ?_⟩
  · rw [h]
    simp [installB, loginB, ejectB, logoutCmd]
  · intro cfg w
    rw [main_eq_mainSteps]
    unfold mainSteps
    split_ifs <;> (try split) <;>
      simp [Config.installStep, Config.loginStep, Config.ejectStep, Config.publishStep,
        Expo.logout, Expo.installExpoCLI, Expo.login, Expo.eject, Expo.publish]

/-! ## Claims on the manifest patch -/

/-- C4 (amended): for a non-empty override version and a `package.json` that is
a JSON object with an object under "dependencies" and that `json.Unmarshal`
accepts, the patch step of `main` writes a document whose
`dependencies["react-native"]` is the override version, in which every other
key of "dependencies" and every other top-level key is present with the value
`json.Unmarshal` decoded for it, and which has no further keys. -/
theorem patch_sets_react_native (cfg : Config) (w : World) (ms ds : List (String × JSON))
    (packages : Object)
    (hV : cfg.ForceReactNativeVersion ≠ "")
    (hfile : w.packageJSON = .ok (.json (.object ms)))
    (hdeps : lastMember ms "dependencies" = some (.object ds))
    (hdec : jsonUnmarshal (.object ms) = .ok packages) :
    ∃ packages' deps' : Object,
      patchContent cfg w = some (GoValue.map packages') ∧
      (published cfg w →
        Action.writePackageJSON (GoValue.map packages') ∈ (main (.ok cfg) w).trace) ∧
      packages'.get "dependencies" = some (GoValue.map deps') ∧
      deps'.get "react-native" = some (GoValue.string cfg.ForceReactNativeVersion) ∧
      (∀ k j, k ≠ "react-native" → lastMember ds k = some j →
        ∃ g, decodeValue j = .ok g ∧ deps'.get k = some g) ∧
      (∀ k, k ≠ "react-native" → lastMember ds k = none → deps'.get k = none) ∧
      (∀ k j, k ≠ "dependencies" → lastMember ms k = some j →
        ∃ g, decodeValue j = .ok g ∧ packages'.get k = some g) ∧
      (∀ k, k ≠ "dependencies" → lastMember ms k = none → packages'.get k = none) := by
  obtain ⟨deps, hdd, hc⟩ := patchContent_of_object cfg w ms ds packages hfile hdeps hdec
  have hdec' : decodeMembers ms [] = .ok packages := hdec
  refine ⟨packages.set "dependencies" (GoValue.map (deps.set "react-native"
      (GoValue.string cfg.ForceReactNativeVersion))),
    deps.set "react-native" (GoValue.string cfg.ForceReactNativeVersion),
    hc, ?_, ?_, ?_, ?_, ?_, ?_, ?_⟩
  · intro hsteps
    obtain ⟨⟨⟨⟨hcred, hdir⟩, hinstall, hlogin⟩, heject⟩, hpublish⟩ := hsteps
    rw [main_eq_mainSteps]
    unfold mainSteps
    have h4 : ¬ (cfg.UserName ≠ "" ∧ w.loginErr ≠ none) := fun h => h.2 (hlogin h.1)
    have h6 : ¬ (cfg.RunPublish = "yes" ∧ w.publishErr ≠ none) := fun h => h.2 (hpublish h.1)
    simp only [hcred, hdir, hinstall, heject, ne_eq, not_true_eq_false, if_false, h4, h6, hV, hc]
    split_ifs <;> simp
  · simp [Object.get_set]
  · simp [Object.get_set]
  · intro k j hk hj
    obtain ⟨g, hg⟩ := decodeMembers_member_ok ds [] deps hdd k j hj
    refine ⟨g, hg, ?_⟩
    rw [Object.get_set, if_neg (Ne.symm hk), decodeMembers_get ds [] deps k hdd, hj]
    simp [hg, Except.toOption]
  · intro k hk hj
    rw [Object.get_set, if_neg (Ne.symm hk), decodeMembers_get ds [] deps k hdd, hj]
    rfl
  · intro k j hk hj
    obtain ⟨g, hg⟩ := decodeMembers_member_ok ms [] packages hdec' k j hj
    refine ⟨g, hg, ?_⟩
    rw [Object.get_set, if_neg (Ne.symm hk), decodeMembers_get ms [] packages k hdec', hj]
    simp [hg, Except.toOption]
  · intro k hk hj
    rw [Object.get_set, if_neg (Ne.symm hk), decodeMembers_get ms [] packages k hdec', hj]
    rfl

/-- Witness of C4: scenario D, where the step writes
`{"dependencies":{"react-native":"0.66.0","lodash":"4.0.0"}}`. -/
theorem patch_sets_react_native_witness :
    (∃ packages' deps' : Object,
      patchContent scenarioD worldD = some (GoValue.map packages') ∧
      (published scenarioD worldD →
        Action.writePackageJSON (GoValue.map packages') ∈ (main (.ok scenarioD) worldD).trace) ∧
      packages'.get "dependencies" = some (GoValue.map deps') ∧
      deps'.get "react-native" = some (GoValue.string scenarioD.ForceReactNativeVersion) ∧
      (∀ k j, k ≠ "react-native" →
        lastMember [("react-native", JSON.string "0.64.0"), ("lodash", JSON.string "4.0.0")] k
          = some j →
        ∃ g, decodeValue j = .ok g ∧ deps'.get k = some g) ∧
      (∀ k, k ≠ "react-native" →
        lastMember [("react-native", JSON.string "0.64.0"), ("lodash", JSON.string "4.0.0")] k
          = none →
        deps'.get k = none) ∧
      (∀ k j, k ≠ "dependencies" →
        lastMember [("dependencies", JSON.object
          [("react-native", JSON.string "0.64.0"), ("lodash", JSON.string "4.0.0")])] k = some j →
        ∃ g, decodeValue j = .ok g ∧ packages'.get k = some g) ∧
      (∀ k, k ≠ "dependencies" →
        lastMember [("dependencies", JSON.object
          [("react-native", JSON.string "0.64.0"), ("lodash", JSON.string "4.0.0")])] k = none →
        packages'.get k = none)) ∧
    (main (.ok scenarioD) worldD).code = 0 ∧
    (main (.ok scenarioD) worldD).trace =
      [Action.run installA, Action.run ejectA, Action.readPackageJSON,
        Action.writePackageJSON (GoValue.map [("dependencies",
          GoValue.map [("react-native", GoValue.string "0.66.0"),
            ("lodash", GoValue.string "4.0.0")])])] :=
  ⟨patch_sets_react_native scenarioD worldD _ _
      [("dependencies", GoValue.map [("react-native", GoValue.string "0.64.0"),
        ("lodash", GoValue.string "4.0.0")])]
      (by decide) rfl rfl rfl,
    rfl, rfl⟩

set_option exponentiation.threshold 1000 in
/-- Counterexample to C4 as stated: `{"dependencies":{},"limit":1e400}` is a
JSON object with an object under "dependencies", yet with the override
"0.66.0" the patch step writes nothing: `json.Unmarshal` rejects the number,
and the run ends with status 1 right after reading the file. -/
theorem patch_rejects_number_out_of_range :
    lastMember [("dependencies", JSON.object []), ("limit", JSON.number ⟨false, 1, 400⟩)]
        "dependencies" = some (JSON.object []) ∧
      worldHuge.packageJSON = .ok (.json (.object
        [("dependencies", JSON.object []), ("limit", JSON.number ⟨false, 1, 400⟩)])) ∧
      patchContent scenarioD worldHuge = none ∧
      (main (.ok scenarioD) worldHuge).code = 1 ∧
      (main (.ok scenarioD) worldHuge).trace =
        [Action.run installA, Action.run ejectA, Action.readPackageJSON] :=
  ⟨rfl, rfl, rfl, rfl, rfl⟩

/-- C8: for a non-empty override version, when `package.json` is missing or
unreadable, is not valid JSON, holds a value that is not a JSON object
(`null` included), or holds an object whose "dependencies" member is absent or
not an object, the patch step fails right after reading the file, `main` ends
with status 1, and no write of `package.json` is performed. -/
theorem patch_failure_writes_nothing (cfg : Config) (w : World)
    (hV : cfg.ForceReactNativeVersion ≠ "")
    (hbad : (∃ err, w.packageJSON = .error err) ∨ w.packageJSON = .ok .notJSON ∨
      (∃ doc, w.packageJSON = .ok (.json doc) ∧ ∀ ms, doc ≠ .object ms) ∨
      (∃ ms, w.packageJSON = .ok (.json (.object ms)) ∧
        (lastMember ms "dependencies" = none ∨
          ∃ j, lastMember ms "dependencies" = some j ∧ ∀ ds, j ≠ .object ds))) :
    (∀ p : Proc, ∃ p', patchPackageJSON cfg w p = .error p' ∧
        p'.trace = p.trace ++ [Action.readPackageJSON]) ∧
      (main (.ok cfg) w).code = 1 ∧
      ∀ v, Action.writePackageJSON v ∉ (main (.ok cfg) w).trace := by
  have hc := patchContent_none cfg w hbad
  refine ⟨fun p => ⟨p.exec Action.readPackageJSON, ?_, rfl⟩, ?_, ?_⟩
  · rw [patchPackageJSON_eq, hc]
  · rw [main_eq_mainSteps]
    unfold mainSteps
    split_ifs <;> simp [hc]
  · intro v hv
    rw [main_eq_mainSteps] at hv
    rcases mem_mainSteps_trace cfg w _ hv with hm | hm | hm | hm | hm | hm | hm
    · simp [Config.installStep] at hm
    · unfold Config.loginStep at hm
      split_ifs at hm <;> simp at hm
    · simp [Config.ejectStep] at hm
    · unfold Config.publishStep at hm
      split_ifs at hm <;> simp at hm
    · simp at hm
    · obtain ⟨v', hv', _⟩ := hm
      rw [hc] at hv'
      simp at hv'
    · unfold Config.logoutStep at hm
      split_ifs at hm <;> simp at hm

/-- Witness of C8: a `package.json` holding `null`, override "0.66.0". -/
theorem patch_failure_writes_nothing_witness :
    (∀ p : Proc, ∃ p', patchPackageJSON scenarioD worldNull p = .error p' ∧
        p'.trace = p.trace ++ [Action.readPackageJSON]) ∧
      (main (.ok scenarioD) worldNull).code = 1 ∧
      ∀ v, Action.writePackageJSON v ∉ (main (.ok scenarioD) worldNull).trace :=
  patch_failure_writes_nothing scenarioD worldNull (by decide)
    (Or.inr (Or.inr (Or.inl ⟨JSON.null, rfl, fun ms h => by cases h⟩)))


/-! ## Claims on the logged login line -/

/-- The printable command of `login` behind `"$ "`, when quoting escapes no
character of the password: a text without `%` when the user name has none,
then the password between double quotes. -/
theorem login_nonFilteredArgs (table : Char → Bool) (e : Expo) (userName password : String)
    (hquote : ∀ r ∈ password.data, appendEscapedRune table r = [r])
    (huser : '%' ∉ userName.data) :
    ∃ pre : List Char, '%' ∉ pre ∧
      "$ ".data ++ (e.login userName password).PrintableCommandArgs (strconvQuote table)
        = pre ++ Char.ofNat 34 :: (password.data ++ [Char.ofNat 34]) := by
  refine ⟨"$ ".data ++ "expo".data ++ [' '] ++ strconvQuote table "login".data ++ [' ']
    ++ strconvQuote table "--non-interactive".data ++ [' '] ++ strconvQuote table "-u".data
    ++ [' '] ++ strconvQuote table userName.data ++ [' '] ++ strconvQuote table "-p".data
    ++ [' '], ?_, ?_⟩
  · intro h
    simp only [List.mem_append] at h
    rcases h with (((((((((((h | h) | h) | h) | h) | h) | h) | h) | h) | h) | h) | h) | h
    · exact absurd h (by decide)
    · exact absurd h (by decide)
    · exact absurd h (by decide)
    · exact absurd (percent_mem_strconvQuote table _ h) (by decide)
    · exact absurd h (by decide)
    · exact absurd (percent_mem_strconvQuote table _ h) (by decide)
    · exact absurd h (by decide)
    · exact absurd (percent_mem_strconvQuote table _ h) (by decide)
    · exact absurd h (by decide)
    · exact huser (percent_mem_strconvQuote table _ h)
    · exact absurd h (by decide)
    · exact absurd (percent_mem_strconvQuote table _ h) (by decide)
    · exact absurd h (by decide)
  · simp [Command.PrintableCommandArgs, ExpoDetach.PrintableCommandArgs, Expo.login,
      List.intercalate, strconvQuote_verbatim table password.data hquote]

/-- C2 (amended): for every user name without `%` and every non-empty password
none of whose characters `strconv.Quote` escapes, the line `login` logs
contains the marker "[REDACTED]", and it contains no occurrence of the
password unless the password and the marker overlap (one occurs in the other,
or a non-empty end of one is a beginning of the other). -/
theorem login_logline_redaction (table : Char → Bool) (e : Expo) (userName password : String)
    (hne : password ≠ "")
    (hquote : ∀ r ∈ password.data, appendEscapedRune table r = [r])
    (huser : '%' ∉ userName.data) :
    "[REDACTED]".data <:+: e.loginLogLine (strconvQuote table) userName password ∧
      (¬ overlap password.data "[REDACTED]".data →
        ¬ password.data <:+: e.loginLogLine (strconvQuote table) userName password) := by
  have hd := data_ne_nil_of_ne_empty password hne
  have hq := quote_not_mem_of_verbatim table password.data hquote
  obtain ⟨pre, hpre, hu⟩ := login_nonFilteredArgs table e userName password hquote huser
  have hin : password.data <:+: pre ++ Char.ofNat 34 :: (password.data ++ [Char.ofNat 34]) :=
    ⟨pre ++ [Char.ofNat 34], [Char.ofNat 34], by simp⟩
  -- the filtered text holds no `%`, so it is logged as it is
  have hfree : '%' ∉ e.loginFileredArgs (strconvQuote table) userName password := by
    unfold Expo.loginFileredArgs
    simp only [hu]
    unfold stringsReplaceAll
    by_cases heq : password.data = "[REDACTED]".data
    · rw [if_pos heq]
      intro h
      simp only [List.mem_append, List.mem_cons, List.mem_singleton, List.not_mem_nil,
        or_false] at h
      rcases h with h | h | h | h
      · exact hpre h
      · exact absurd h (by decide)
      · rw [heq] at h
        exact absurd h (by decide)
      · exact absurd h (by decide)
    · rw [if_neg heq, if_neg hd, stringsReplaceFrom_quoted _ _ hd _ hq]
      intro h
      simp only [List.mem_append, List.mem_cons, List.mem_singleton, List.not_mem_nil,
        or_false] at h
      rcases h with h | h | h | h
      · rcases mem_stringsReplaceFrom _ _ _ _ _ h with h | h
        · exact hpre h
        · exact absurd h (by decide)
      · exact absurd h (by decide)
      · exact absurd h (by decide)
      · exact absurd h (by decide)
  have hlog : e.loginLogLine (strconvQuote table) userName password
      = e.loginFileredArgs (strconvQuote table) userName password := by
    unfold Expo.loginLogLine logPrintf fmtSprintf
    exact doPrintf_of_no_percent _ hfree
  rw [hlog]
  unfold Expo.loginFileredArgs
  simp only [hu]
  exact ⟨new_infix_stringsReplaceAll _ _ _ hd hin,
    fun hov => not_infix_stringsReplaceAll _ _ _ hd hov⟩

/-- Witness of C2: user name "alice", password "Tiger123" (which shares the
letter T with the marker without overlapping it). -/
theorem login_logline_redaction_witness :
    ("Tiger123" : String) ≠ "" ∧ '%' ∉ "alice".data ∧
      ¬ overlap "Tiger123".data "[REDACTED]".data ∧
      "[REDACTED]".data <:+: scenarioB.expo.loginLogLine quoteLatin1 "alice" "Tiger123" ∧
      ¬ "Tiger123".data <:+: scenarioB.expo.loginLogLine quoteLatin1 "alice" "Tiger123" :=
  ⟨by decide, by decide, by decide,
    (login_logline_redaction (fun _ => false) scenarioB.expo "alice" "Tiger123" (by decide)
      (by decide) (by decide)).1,
    (login_logline_redaction (fun _ => false) scenarioB.expo "alice" "Tiger123" (by decide)
      (by decide) (by decide)).2 (by decide)⟩

/-- Counterexample to C2 as stated, four logged lines.  With the password "R"
the line is `$ expo "login" "--non-interactive" "-u" "alice" "-p" "[REDACTED]"`
and contains the password, as a part of the marker.  With the user name "]aa"
and the password "]a" the line has `"[REDACTED]a"` for the user name and
contains the password, across the end of the marker.  With the password `a"b`
the line holds no marker: quoting wrote the password as `a\"b`, which the
replacement does not find.  With the user name "%s" and the password "MISSING"
the line contains the password: `log.Printf` takes the text as its format and
writes `"%!s(MISSING)"` for the user name. -/
theorem login_logline_contains_password :
    (("R" : String) ≠ "" ∧
      "R".data <:+: scenarioB.expo.loginLogLine quoteLatin1 "alice" "R") ∧
    (("]a" : String) ≠ "" ∧
      "]a".data <:+: scenarioB.expo.loginLogLine quoteLatin1 "]aa" "]a") ∧
    (passwordWithQuote ≠ "" ∧
      ¬ "[REDACTED]".data <:+:
        scenarioB.expo.loginLogLine quoteLatin1 "alice" passwordWithQuote) ∧
    (("MISSING" : String) ≠ "" ∧ ¬ overlap "MISSING".data "[REDACTED]".data ∧
      "MISSING".data <:+: scenarioB.expo.loginLogLine quoteLatin1 "%s" "MISSING") := by
  refine ⟨⟨by decide, by decide⟩, ⟨by decide, by decide⟩, ⟨by decide, by decide⟩,
    by decide, by decide, by decide⟩

end ExpoDetach
